import Mathlib

/-!
Verification of the mutagen record parser, serializer and association
rewriter.  The definitions below are a shallow embedding of the Python
sources src/mutagen/parser.py and src/finalise.py: lines are Lean strings,
lazy iterator pipelines become eager list transformations (the Python code
always forces them with list inside the same call), Python exceptions
become Except values, and the permissive-parse holes (None entries) become
Option values inside the child lists.  Character classes model the ASCII
fragment of the Python regular expressions.
-/

set_option maxHeartbeats 1000000

/-! ## Character classes of the Python regular expressions (ASCII fragment) -/

/-- Regex class backslash-w restricted to ASCII: letters, digits, underscore. -/
def isWordChar (c : Char) : Bool := c.isAlphanum || c = '_'

/-- Regex class backslash-s and the characters removed by Python str.strip:
space, tab, newline, carriage return, vertical tab, form feed. -/
def isSpaceChar (c : Char) : Bool :=
  c = ' ' || c = '\t' || c = '\n' || c = '\r' || c = '\x0b' || c = '\x0c'

/-- Regex class backslash-d restricted to ASCII. -/
def isDigitChar (c : Char) : Bool := c.isDigit

/-! ## Python string primitives used by the sources -/

/-- Python str.strip with no argument: remove leading and trailing whitespace. -/
def stripChars (l : List Char) : List Char :=
  ((l.dropWhile isSpaceChar).reverse.dropWhile isSpaceChar).reverse

/-- Python str.strip on a String. -/
def pyStrip (s : String) : String := ⟨stripChars s.data⟩

/-- Python str.strip with argument a single question mark: both ends. -/
def stripQChars (l : List Char) : List Char :=
  ((l.dropWhile (· = '?')).reverse.dropWhile (· = '?')).reverse

/-- Python str.lower, ASCII fragment. -/
def pyLower (s : String) : String := ⟨s.data.map Char.toLower⟩

/-- Python str.upper, ASCII fragment. -/
def pyUpperChars (l : List Char) : List Char := l.map Char.toUpper

/-- Python str.split with a one-character separator: always returns at least
one (possibly empty) part, keeps empty parts. -/
def splitChar (sep : Char) : List Char → List (List Char)
  | [] => [[]]
  | c :: rest =>
    match splitChar sep rest with
    | [] => [[]]
    | h :: t => if c = sep then [] :: h :: t else (c :: h) :: t

/-- Python one-character str.join. -/
def joinChar (sep : Char) : List (List Char) → List Char
  | [] => []
  | [p] => p
  | p :: ps => p ++ sep :: joinChar sep ps

/-- Decimal digit character, as produced by Python integer formatting. -/
def digitCh (d : Nat) : Char := Char.ofNat (48 + d)

/-- Divide-by-ten loop of decimal formatting; the fuel dominates the digit
count so the zero-fuel branch is never reached from decChars. -/
def decAux : Nat → Nat → List Char → List Char
  | 0, _, acc => acc
  | fuel + 1, n, acc =>
    if n < 10 then digitCh n :: acc
    else decAux fuel (n / 10) (digitCh (n % 10) :: acc)

/-- Python str of a non-negative int: decimal digits, no sign, no padding. -/
def decChars (n : Nat) : List Char := decAux (n + 1) n []

/-- Python str of a non-negative int as a String. -/
def decS (n : Nat) : String := ⟨decChars n⟩

/-- Value of a decimal digit character. -/
def digitVal (c : Char) : Option Nat :=
  if c.isDigit then some (c.toNat - 48) else none

/-- Python int on the tail of a numeric literal: digits, with single
underscores allowed between digits (PEP 515).  The call sites only ever
receive captures of backslash-w-plus or backslash-d-plus, so signs and
surrounding whitespace never occur and are not modelled. -/
def pyIntLoop : Nat → List Char → Option Nat
  | acc, [] => some acc
  | acc, c :: rest =>
    if c = '_' then
      match rest with
      | [] => none
      | c2 :: rest2 =>
        match digitVal c2 with
        | some d => pyIntLoop (acc * 10 + d) rest2
        | none => none
    else
      match digitVal c with
      | some d => pyIntLoop (acc * 10 + d) rest
      | none => none

/-- Python int applied to a string: none models a ValueError. -/
def pyIntChars (l : List Char) : Option Nat :=
  match l with
  | [] => none
  | c :: rest =>
    match digitVal c with
    | some d => pyIntLoop d rest
    | none => none

/-- Python int on a String. -/
def pyInt (s : String) : Option Nat := pyIntChars s.data

/-! ## Data model (parser.py NamedTuples); a none entry in a child list is a
hole left by the permissive parser -/

structure Effect where
  cls : String
  level : Option String
  target : Option String
  associations : List String
deriving DecidableEq

structure SubRecord where
  id : Nat
  description : String
  effects : List (Option Effect)
deriving DecidableEq

structure Mutation where
  id : Nat
  start : Nat
  stop : Nat
  ref : Option String
  alt : Option String
  description : String
  subrecs : List (Option SubRecord)
deriving DecidableEq

structure Record where
  protein : String
  mutations : List (Option Mutation)
deriving DecidableEq

/-- The CLASSES frozenset of effect category codes. -/
def CLASSES : List String :=
  ["ORG", "CEL", "PAT", "PRO", "INT", "IND", "ENZ", "MIM",
   "LOC", "TRA", "CHA", "CAR", "UNK"]

/-- The LEVELS frozenset; defined in parser.py but never consulted. -/
def LEVELS : List String := ["--", "-", "0", "+", "++", "r"]

/-- The PREF frozenset of structural prefix characters. -/
def PREF : List Char := ['<', '[', '>']

/-! ## Regular expression recognizers.  Each is a hand-compiled deterministic
matcher for the corresponding compiled pattern in parser.py; every greedy
quantified class there is followed by a character outside the class, so
maximal munch is equivalent to the backtracking search, except at the final
text captures where the explicit backtracking is reproduced below. -/

/-- MUTPREF, the pattern anchored-open-angle-digits-close-angle: does the line
start a mutation header.  Only used as a boundary predicate. -/
def matchesMutpref (s : String) : Bool :=
  match s.data with
  | '<' :: rest =>
    match rest.dropWhile isDigitChar with
    | '>' :: _ => rest.takeWhile isDigitChar ≠ []
    | _ => false
  | _ => false

/-- SUBPREF, the pattern anchored-open-bracket-digits-close-bracket. -/
def matchesSubpref (s : String) : Bool :=
  match s.data with
  | '[' :: rest =>
    match rest.dropWhile isDigitChar with
    | ']' :: _ => rest.takeWhile isDigitChar ≠ []
    | _ => false
  | _ => false

/-- The final capture dot-plus after a greedy backslash-s-star, with the
backtracking of the real engine: prefer the longest whitespace run that
leaves a non-empty dot-plus match; the dot class excludes the newline. -/
def dotAfterSpaces : List Char → Option (List Char)
  | [] => none
  | d :: rest =>
    if isSpaceChar d then
      match dotAfterSpaces rest with
      | some t => some t
      | none => if d = '\n' then none else some (d :: rest.takeWhile (· ≠ '\n'))
    else if d = '\n' then none else some (d :: rest.takeWhile (· ≠ '\n'))

/-- The capture backslash-s-plus followed by dot-plus: at least one
whitespace character, then as dotAfterSpaces. -/
def spacePlusDot : List Char → Option (List Char)
  | [] => none
  | c :: rest => if isSpaceChar c then dotAfterSpaces rest else none

/-- Stage of MUTPATT after the second pipe: greedy word alt, then the
whitespace-and-text tail; the earlier captures are threaded through. -/
def mutPattAlt (idc refc startc stopc r5 : List Char) :
    Option (List Char × List Char × List Char × List Char × List Char × List Char) :=
  if r5.takeWhile isWordChar = [] then none else
  match spacePlusDot (r5.dropWhile isWordChar) with
  | some text => some (idc, refc, startc, stopc, r5.takeWhile isWordChar, text)
  | none => none

/-- Stage of MUTPATT after the dash: greedy digits stop, then a pipe. -/
def mutPattStop (idc refc startc r4 : List Char) :
    Option (List Char × List Char × List Char × List Char × List Char × List Char) :=
  if r4.takeWhile isDigitChar = [] then none else
  match r4.dropWhile isDigitChar with
  | '|' :: r5 => mutPattAlt idc refc startc (r4.takeWhile isDigitChar) r5
  | _ => none

/-- Stage of MUTPATT after the first pipe: greedy digits start, then a
dash. -/
def mutPattStart (idc refc r3 : List Char) :
    Option (List Char × List Char × List Char × List Char × List Char × List Char) :=
  if r3.takeWhile isDigitChar = [] then none else
  match r3.dropWhile isDigitChar with
  | '-' :: r4 => mutPattStop idc refc (r3.takeWhile isDigitChar) r4
  | _ => none

/-- Stage of MUTPATT after the optional whitespace: greedy word ref, then a
pipe. -/
def mutPattRef (idc r2 : List Char) :
    Option (List Char × List Char × List Char × List Char × List Char × List Char) :=
  if r2.takeWhile isWordChar = [] then none else
  match r2.dropWhile isWordChar with
  | '|' :: r3 => mutPattStart idc (r2.takeWhile isWordChar) r3
  | _ => none

/-- Stage of MUTPATT after the open angle: greedy word id, a close angle,
then skip the optional whitespace. -/
def mutPattId (r0 : List Char) :
    Option (List Char × List Char × List Char × List Char × List Char × List Char) :=
  if r0.takeWhile isWordChar = [] then none else
  match r0.dropWhile isWordChar with
  | '>' :: r1 => mutPattRef (r0.takeWhile isWordChar) (r1.dropWhile isSpaceChar)
  | _ => none

/-- MUTPATT: open angle, word id, close angle, optional space, word ref,
pipe, digits start, dash, digits stop, pipe, word alt, whitespace, text.
Returns the six captures (id, ref, start, stop, alt, text); compiled in
stages, one per greedy group. -/
def matchMutPatt (s : String) :
    Option (List Char × List Char × List Char × List Char × List Char × List Char) :=
  match s.data with
  | '<' :: r0 => mutPattId r0
  | _ => none

/-- Final stage of SUBRECPATT: the optional whitespace and the text
capture. -/
def subrecPattText (idc r1 : List Char) : Option (List Char × List Char) :=
  match dotAfterSpaces r1 with
  | some text => some (idc, text)
  | none => none

/-- SUBRECPATT: open bracket, digits id, close bracket, optional whitespace,
text.  Returns the two captures (id, text). -/
def matchSubrecPatt (s : String) : Option (List Char × List Char) :=
  match s.data with
  | '[' :: r0 =>
    if r0.takeWhile isDigitChar = [] then none else
    match r0.dropWhile isDigitChar with
    | ']' :: r1 => subrecPattText (r0.takeWhile isDigitChar) r1
    | _ => none
  | _ => none

/-! ## Grouping primitives (separate, breakby) -/

/-- The separate function: insert the separator before every line satisfying
the condition. -/
def separate (cond : String → Bool) (sep : String) (lines : List String) :
    List String :=
  lines.flatMap (fun l => if cond l then [sep, l] else [l])

/-- Accumulator loop for breakby: cur holds the reversed current run of
lines on which the condition is false. -/
def breakbyAux (p : String → Bool) : List String → List String → List (List String)
  | [], cur => if cur = [] then [] else [cur.reverse]
  | l :: ls, cur =>
    if p l then
      if cur = [] then breakbyAux p ls [] else cur.reverse :: breakbyAux p ls []
    else breakbyAux p ls (l :: cur)

/-- The breakby function with the condition op.not, as used at every call
site: group maximal runs of lines on which the condition is false (non-empty
lines) and drop the separator runs.  The predicate p is the condition. -/
def breakby (p : String → Bool) (lines : List String) : List (List String) :=
  breakbyAux p lines []

/-- Python exceptions that the parser can raise or catch. -/
inductive PyErr
  | valueError
  | attributeError
  | stopIteration
deriving DecidableEq

/-- Evaluate a list of fallible computations left to right, as Python list
over map does; the first raised exception propagates. -/
def exceptList : List (Except PyErr α) → Except PyErr (List α)
  | [] => .ok []
  | x :: xs =>
    match x with
    | .error e => .error e
    | .ok a =>
      match exceptList xs with
      | .error e => .error e
      | .ok as => .ok (a :: as)

/-! ## The parser (parse in parser.py).  Each nested function receives the
lines of its group; the Python next call on an empty group raises
StopIteration, which no optionable wrapper catches, so it is an error value
that propagates to the caller. -/

/-- Truthiness filter of the top pipeline: keep non-empty lines. -/
def lineTruthy (s : String) : Bool := s ≠ ""

/-- The condition of the top-level separate: first character not a
structural prefix.  The Python lambda indexes l[0]; it is only applied
after empty lines are filtered out, so the empty case is unreachable there
(Python would raise IndexError). -/
def firstNotPref (l : String) : Bool :=
  match l.data with
  | [] => true
  | c :: _ => !(PREF.contains c)

/-- One effect line (parse_effect, optionable over ValueError): strip the
leading greater-than and space characters, split on pipes, pad to four
fields, reject an unknown class, strip question marks off level and target,
split the associations on semicolons dropping empty entries. -/
def parse_effect (line : String) : Option Effect :=
  let parts := splitChar '|' (line.data.dropWhile (fun c => c = '>' || c = ' '))
  let cls := parts.getD 0 []
  let lvl := parts.getD 1 []
  let tgt := parts.getD 2 []
  let assoc := parts.getD 3 []
  if CLASSES.contains ⟨pyUpperChars cls⟩ then
    some
      { cls := ⟨cls⟩
        level := if stripQChars lvl = [] then none else some ⟨stripQChars lvl⟩
        target := if stripQChars tgt = [] then none else some ⟨stripQChars tgt⟩
        associations := ((splitChar ';' assoc).filter (· ≠ [])).map (⟨·⟩) }
  else none

/-- Body of parse_subrec after a successful header match: convert the id
(the int call can raise ValueError, caught by the optionable wrapper into a
hole) and parse every remaining line as an effect. -/
def parse_subrec2 (idc text : List Char) (rest : List String) :
    Except PyErr (Option SubRecord) :=
  match pyIntChars idc with
  | none => .ok none
  | some id => .ok (some ⟨id, ⟨text⟩, rest.map parse_effect⟩)

/-- One sub-record group (parse_subrec, optionable over ValueError only):
a header mismatch raises AttributeError, which this level does not catch;
an empty group raises StopIteration. -/
def parse_subrec (lines : List String) : Except PyErr (Option SubRecord) :=
  match lines with
  | [] => .error .stopIteration
  | first :: rest =>
    match matchSubrecPatt first with
    | none => .error .attributeError
    | some (idc, text) => parse_subrec2 idc text rest

/-- Body of parse_mut after a successful header match: convert the numeric
captures (a ValueError becomes a hole), fold the literal none alleles to
absent, group the remaining lines into sub-records; an AttributeError or
ValueError escaping a sub-record makes the whole mutation a hole. -/
def parse_mut2 (idc refc startc stopc altc text : List Char)
    (rest : List String) : Except PyErr (Option Mutation) :=
  match pyIntChars idc, pyIntChars startc, pyIntChars stopc with
  | some id, some start, some stop =>
    match exceptList ((breakby (· = "")
        (separate matchesSubpref "" rest)).map parse_subrec) with
    | .ok subrecords =>
      .ok (some ⟨id, start, stop,
        (if pyLower ⟨refc⟩ = "none" then none else some ⟨refc⟩),
        (if pyLower ⟨altc⟩ = "none" then none else some ⟨altc⟩),
        pyStrip ⟨text⟩, subrecords⟩)
    | .error .stopIteration => .error .stopIteration
    | .error _ => .ok none
  | _, _, _ => .ok none

/-- One mutation group (parse_mut, optionable over ValueError and
AttributeError): a header mismatch or a failed int conversion becomes a
hole, and so does an AttributeError escaping from a sub-record group; a
StopIteration is not caught and propagates. -/
def parse_mut (lines : List String) : Except PyErr (Option Mutation) :=
  match lines with
  | [] => .error .stopIteration
  | first :: rest =>
    match matchMutPatt first with
    | none => .ok none
    | some (idc, refc, startc, stopc, altc, text) =>
      parse_mut2 idc refc startc stopc altc text rest

/-- One record group (parse_rec, not wrapped): the first line is the
protein, the rest is regrouped at mutation headers. -/
def parse_rec (lines : List String) : Except PyErr Record :=
  match lines with
  | [] => .error .stopIteration
  | protein :: rest =>
    match exceptList ((breakby (· = "")
        (separate matchesMutpref "" rest)).map parse_mut) with
    | .ok mutations => .ok ⟨protein, mutations⟩
    | .error e => .error e

/-- The top-level parse: strip every line, drop empty lines, mark a record
boundary before every line not opening with a structural prefix character,
split on boundaries and parse each group as a record. -/
def parse (handle : List String) : Except PyErr (List Record) :=
  exceptList
    (((breakby (· = "")
        (separate firstNotPref ""
          ((handle.map pyStrip).filter lineTruthy))).map parse_rec))

/-! ## The serializer (write in parser.py).  The Python f-string renders an
absent optional as the literal word None; write crashes on a hole (an
attribute access on None), modelled by the Option result. -/

/-- Python f-string interpolation of an Optional string field. -/
def pyShowOpt : Option String → String
  | none => "None"
  | some s => s

/-- Python expression val-or-empty used for the first three effect fields. -/
def orEmpty : Option String → String
  | none => ""
  | some s => s

/-- Sequence a list of optional values; none models a crash on a hole. -/
def optList : List (Option α) → Option (List α)
  | [] => some []
  | x :: xs =>
    match x with
    | none => none
    | some a => (optList xs).map (a :: ·)

/-- Python semicolon join of the association list. -/
def joinAssocs (assocs : List String) : String :=
  ⟨joinChar ';' (assocs.map String.data)⟩

/-- write_eff: three tab indent, the marker, the four fields joined by
pipes. -/
def write_eff (eff : Effect) : String :=
  "\t\t\t>> " ++ eff.cls ++ "|" ++ orEmpty eff.level ++ "|" ++
    orEmpty eff.target ++ "|" ++ joinAssocs eff.associations

/-- write_subrec: two tab indent header, then the effect lines. -/
def write_subrec (subrec : SubRecord) : Option (List String) :=
  (optList (subrec.effects.map (fun o => o.map write_eff))).map
    (fun effLines =>
      ("\t\t[" ++ decS subrec.id ++ "] " ++ subrec.description) :: effLines)

/-- write_mut: one tab indent header with the f-string position field, then
the sub-record lines. -/
def write_mut (m : Mutation) : Option (List String) :=
  (optList (m.subrecs.map (fun o => o.bind write_subrec))).map
    (fun blocks =>
      ("\t<" ++ decS m.id ++ "> " ++ pyShowOpt m.ref ++ "|" ++
        decS m.start ++ "-" ++ decS m.stop ++ "|" ++ pyShowOpt m.alt ++
        " " ++ m.description) :: blocks.flatten)

/-- write_record: the protein line, then the mutation lines. -/
def write_record (rec : Record) : Option (List String) :=
  (optList (rec.mutations.map (fun o => o.bind write_mut))).map
    (fun blocks => rec.protein :: blocks.flatten)

/-- write: concatenation over all records. -/
def write (records : List Record) : Option (List String) :=
  (optList (records.map write_record)).map List.flatten

/-! ## Association patterns and the rewriter (finalise.py) -/

/-- Class open-bracket-A-Z-0-9-close-bracket of the association patterns. -/
def isCodeChar (c : Char) : Bool := c.isUpper || c.isDigit

/-- End anchor of re.match with a dollar: end of string, or just before one
final newline. -/
def atLineEnd (l : List Char) : Bool := l = [] || l = ['\n']

/-- ASSOC_PAT: code characters, then one or two groups of a colon followed
by digits, anchored at both ends. -/
def assocPat (s : String) : Bool :=
  match s.data.dropWhile isCodeChar with
  | ':' :: r1 =>
    let r2 := r1.dropWhile isDigitChar
    if atLineEnd r2 then true
    else
      match r2 with
      | ':' :: r3 => atLineEnd (r3.dropWhile isDigitChar)
      | _ => false
  | _ => false

/-- PHANTOM_ASSOC_PAT: code characters, a colon, characters from the class
upper-dash-digit, a final question mark, anchored at both ends. -/
def phantomAssocPat (s : String) : Bool :=
  match s.data.dropWhile isCodeChar with
  | ':' :: r1 =>
    match r1.dropWhile (fun c => isCodeChar c || c = '-') with
    | '?' :: r2 => atLineEnd r2
    | _ => false
  | _ => false

/-- The fnor composition of the two pattern matches used on every mapping
value. -/
def is_association (s : String) : Bool := assocPat s || phantomAssocPat s

/-- Failure sites of rename_associations; each constructor carries the data
interpolated into the corresponding ValueError message, and the
nonExhaustive constructor names the missing key as the KeyError does. -/
inductive RenameErr
  | malformedMapping (protein : String)
  | malformedMutations (protein : String)
  | malformedSubrecs (protein : String) (mutid : Nat)
  | malformedEffects (protein : String) (mutid : Nat) (subid : Nat)
  | nonExhaustive (protein : String) (key : String)
deriving DecidableEq

/-- The association mapping: an insertion-ordered dict, modelled as a list
of key-value pairs with distinct keys looked up front to back. -/
def lookupM (m : List (String × String)) (k : String) : Option String :=
  (m.find? (fun kv => kv.1 = k)).map (fun kv => kv.2)

/-- The list comprehension over mapping lookups inside rename_assoc; the
first missing key raises, wrapped into the ValueError naming it. -/
def lookupAll (m : List (String × String)) (protein : String) :
    List String → Except RenameErr (List String)
  | [] => .ok []
  | k :: ks =>
    match lookupM m k with
    | none => .error (.nonExhaustive protein k)
    | some v => (lookupAll m protein ks).map (v :: ·)

/-- Evaluate fallible computations over a list left to right, as Python list
over map does; the first raised error propagates. -/
def mapExcept (f : α → Except RenameErr β) : List α → Except RenameErr (List β)
  | [] => .ok []
  | a :: as =>
    match f a with
    | .error e => .error e
    | .ok b =>
      match mapExcept f as with
      | .error e => .error e
      | .ok bs => .ok (b :: bs)

/-- rename_assoc: rebuild the effect with every association mapped. -/
def rename_assoc (m : List (String × String)) (protein : String)
    (effect : Effect) : Except RenameErr Effect :=
  (lookupAll m protein effect.associations).map
    (fun assocs => ⟨effect.cls, effect.level, effect.target, assocs⟩)

/-- check_subrec: require a non-empty, hole-free effect list, then rename
every effect.  After the truthiness check the entries are all present, so
the Python map over them is the map over the unwrapped values. -/
def check_subrec (m : List (String × String)) (protein : String) (mutid : Nat)
    (subrec : SubRecord) : Except RenameErr SubRecord :=
  if subrec.effects = [] ∨ none ∈ subrec.effects then
    .error (.malformedEffects protein mutid subrec.id)
  else
    (mapExcept (rename_assoc m protein) (subrec.effects.filterMap id)).map
      (fun effs => ⟨subrec.id, subrec.description, effs.map some⟩)

/-- check_mut: require a non-empty, hole-free sub-record list, then rebuild
with every sub-record checked. -/
def check_mut (m : List (String × String)) (protein : String)
    (mu : Mutation) : Except RenameErr Mutation :=
  if mu.subrecs = [] ∨ none ∈ mu.subrecs then
    .error (.malformedSubrecs protein mu.id)
  else
    (mapExcept (check_subrec m protein mu.id) (mu.subrecs.filterMap id)).map
      (fun srs =>
        ⟨mu.id, mu.start, mu.stop, mu.ref, mu.alt, mu.description, srs.map some⟩)

/-- rename_associations: first validate every mapping value against the two
association patterns, then require a non-empty, hole-free mutation list,
then check every mutation. -/
def rename_associations (m : List (String × String)) (record : Record) :
    Except RenameErr Record :=
  if ¬ (m.all (fun kv => is_association kv.2)) then
    .error (.malformedMapping record.protein)
  else if record.mutations = [] ∨ none ∈ record.mutations then
    .error (.malformedMutations record.protein)
  else
    (mapExcept (check_mut m record.protein) (record.mutations.filterMap id)).map
      (fun muts => ⟨record.protein, muts.map some⟩)

/-! ## Structural predicates used to state the claims -/

/-- A sub-record is complete when its effect list is non-empty and hole
free. -/
def completeSubrec (sr : SubRecord) : Bool :=
  sr.effects ≠ [] && sr.effects.all (fun o => o.isSome)

/-- A mutation is complete when its sub-record list is non-empty and hole
free and every sub-record is complete. -/
def completeMut (mu : Mutation) : Bool :=
  mu.subrecs ≠ [] && mu.subrecs.all
    (fun o => match o with | none => false | some sr => completeSubrec sr)

/-- A record is complete when its mutation list is non-empty and hole free
and every mutation is complete: this is the validation invariant of the
rewriter. -/
def completeRecord (r : Record) : Bool :=
  r.mutations ≠ [] && r.mutations.all
    (fun o => match o with | none => false | some mu => completeMut mu)

/-- Every association reference occurring in a sub-record, in traversal
order. -/
def subrecAssocs (sr : SubRecord) : List String :=
  sr.effects.flatMap (fun oe =>
    match oe with
    | none => []
    | some e => e.associations)

/-- Every association reference occurring in a mutation, in traversal
order. -/
def mutAssocs (mu : Mutation) : List String :=
  mu.subrecs.flatMap (fun os =>
    match os with
    | none => []
    | some sr => subrecAssocs sr)

/-- Every association reference occurring in a record, in traversal order. -/
def recordAssocs (r : Record) : List String :=
  r.mutations.flatMap (fun o =>
    match o with
    | none => []
    | some mu => mutAssocs mu)

/-! ## Well-formedness of a record tree, the hypothesis of the round-trip
property: no holes, non-empty child lists, and every textual field shaped so
that the line grammar can represent it (identifiers made of word characters,
descriptions non-empty, stripped and single-line, class codes from the
enumeration, level and target free of pipes and of edge question marks,
association tokens free of separators and whitespace). -/

/-- No newline inside the string: the final dot-plus captures stop at a
newline, so multi-line descriptions cannot round trip. -/
def noNl (s : String) : Bool := s.data.all (· ≠ '\n')

/-- Non-empty with no leading or trailing whitespace: such a string is a
fixed point of Python str.strip. -/
def strippedNE (s : String) : Bool :=
  match s.data, s.data.getLast? with
  | c :: _, some d => !isSpaceChar c && !isSpaceChar d
  | _, _ => false

/-- A non-empty run of word characters. -/
def wordStr (s : String) : Bool := s.data ≠ [] && s.data.all isWordChar

/-- A representable optional allele: absent, or a word that the parser does
not fold back to absent. -/
def refAltOk : Option String → Bool
  | none => true
  | some s => wordStr s && pyLower s ≠ "none"

/-- A representable optional level or target: absent, or non-empty, free of
the pipe field separator, with no question mark at either end (the parser
strips those). -/
def qFieldOk : Option String → Bool
  | none => true
  | some s =>
    s.data ≠ [] && s.data.all (· ≠ '|') &&
    s.data.head? ≠ some '?' && s.data.getLast? ≠ some '?'

/-- A representable association token: non-empty and free of whitespace and
of both separators. -/
def assocTokOk (s : String) : Bool :=
  s.data ≠ [] && s.data.all (fun c => !isSpaceChar c && c ≠ '|' && c ≠ ';')

/-- A representable description: non-empty, stripped, single line. -/
def descOk (s : String) : Bool := strippedNE s && noNl s

def wfEffect (e : Effect) : Bool :=
  CLASSES.contains ⟨pyUpperChars e.cls.data⟩ &&
  e.cls.data.all (fun c => c ≠ '>' && c ≠ ' ' && c ≠ '|') &&
  qFieldOk e.level && qFieldOk e.target && e.associations.all assocTokOk

def wfSubrec (sr : SubRecord) : Bool :=
  descOk sr.description && sr.effects ≠ [] &&
  sr.effects.all (fun o => match o with | none => false | some e => wfEffect e)

def wfMut (mu : Mutation) : Bool :=
  refAltOk mu.ref && refAltOk mu.alt && descOk mu.description &&
  mu.subrecs ≠ [] &&
  mu.subrecs.all (fun o => match o with | none => false | some sr => wfSubrec sr)

/-- A representable protein line: non-empty, stripped, not opening with a
structural prefix character. -/
def proteinOk (s : String) : Bool :=
  strippedNE s &&
  (match s.data with
   | c :: _ => !PREF.contains c
   | [] => false)

def wfRecord (r : Record) : Bool :=
  proteinOk r.protein && r.mutations ≠ [] &&
  r.mutations.all (fun o => match o with | none => false | some mu => wfMut mu)

/-! ## The shape of a successful rewrite, stated from the specification: the
association lists replaced element-wise through the mapping, every other
field copied. -/

def MappedEffect (m : List (String × String)) (e e2 : Effect) : Prop :=
  e2.cls = e.cls ∧ e2.level = e.level ∧ e2.target = e.target ∧
  List.Forall₂ (fun k v => lookupM m k = some v) e.associations e2.associations

def MappedSubrec (m : List (String × String)) (sr sr2 : SubRecord) : Prop :=
  sr2.id = sr.id ∧ sr2.description = sr.description ∧
  List.Forall₂ (fun oe oe2 => ∃ e e2, oe = some e ∧ oe2 = some e2 ∧
    MappedEffect m e e2) sr.effects sr2.effects

def MappedMut (m : List (String × String)) (mu mu2 : Mutation) : Prop :=
  mu2.id = mu.id ∧ mu2.start = mu.start ∧ mu2.stop = mu.stop ∧
  mu2.ref = mu.ref ∧ mu2.alt = mu.alt ∧ mu2.description = mu.description ∧
  List.Forall₂ (fun os os2 => ∃ sr sr2, os = some sr ∧ os2 = some sr2 ∧
    MappedSubrec m sr sr2) mu.subrecs mu2.subrecs

def MappedRecord (m : List (String × String)) (r r2 : Record) : Prop :=
  r2.protein = r.protein ∧
  List.Forall₂ (fun om om2 => ∃ mu mu2, om = some mu ∧ om2 = some mu2 ∧
    MappedMut m mu mu2) r.mutations r2.mutations

/-- Level and target post-processing of an effect field, for stating the
field behaviour of parse_effect: strip question marks from both ends, then
empty becomes absent. -/
def optQField (l : List Char) : Option String :=
  if stripQChars l = [] then none else some ⟨stripQChars l⟩

/-! ## The line shapes of the serializer under completeness, used to state
and prove the round trip: the raw lines write produces, and the same lines
after the strip applied by the parser pipeline -/

/-- The lines write_subrec yields on a hole-free sub-record. -/
def subrecLines (sr : SubRecord) : List String :=
  ("\t\t[" ++ decS sr.id ++ "] " ++ sr.description) ::
    (sr.effects.filterMap id).map write_eff

/-- The lines write_mut yields on a hole-free mutation. -/
def mutLines (mu : Mutation) : List String :=
  ("\t<" ++ decS mu.id ++ "> " ++ pyShowOpt mu.ref ++ "|" ++ decS mu.start ++
      "-" ++ decS mu.stop ++ "|" ++ pyShowOpt mu.alt ++ " " ++
      mu.description) ::
    ((mu.subrecs.filterMap id).map subrecLines).flatten

/-- The lines write_record yields on a hole-free record. -/
def recordLines (r : Record) : List String :=
  r.protein :: ((r.mutations.filterMap id).map mutLines).flatten

/-- An effect line once the parser pipeline has stripped it. -/
def effLine (e : Effect) : String :=
  ⟨'>' :: '>' :: ' ' :: (e.cls.data ++ ('|' :: ((orEmpty e.level).data ++
    ('|' :: ((orEmpty e.target).data ++
    ('|' :: joinChar ';' (e.associations.map String.data)))))))⟩

/-- A sub-record header line once stripped. -/
def subrecHeadS (sr : SubRecord) : String :=
  ⟨'[' :: (decChars sr.id ++ (']' :: ' ' :: sr.description.data))⟩

/-- A mutation header line once stripped. -/
def mutHeadS (mu : Mutation) : String :=
  ⟨'<' :: (decChars mu.id ++ ('>' :: ' ' :: ((pyShowOpt mu.ref).data ++
    ('|' :: (decChars mu.start ++ ('-' :: (decChars mu.stop ++
    ('|' :: ((pyShowOpt mu.alt).data ++ (' ' :: mu.description.data))))))))))⟩

/-- The stripped lines of a hole-free sub-record. -/
def subrecLinesS (sr : SubRecord) : List String :=
  subrecHeadS sr :: (sr.effects.filterMap id).map effLine

/-- The stripped lines of a hole-free mutation. -/
def mutLinesS (mu : Mutation) : List String :=
  mutHeadS mu :: ((mu.subrecs.filterMap id).map subrecLinesS).flatten

/-- The stripped lines of a hole-free record. -/
def recordLinesS (r : Record) : List String :=
  r.protein :: ((r.mutations.filterMap id).map mutLinesS).flatten

/-! ## List infrastructure lemmas -/

theorem takeWhile_append_stop {α} (p : α → Bool) (xs : List α) (y : α)
    (ys : List α) (hx : ∀ x ∈ xs, p x = true) (hy : p y = false) :
    (xs ++ y :: ys).takeWhile p = xs := by
  induction xs with
  | nil => simp [List.takeWhile_cons, hy]
  | cons a as ih =>
    have ha : p a = true := hx a (by simp)
    simp only [List.cons_append, List.takeWhile_cons, ha, if_true]
    rw [ih (fun x hmem => hx x (by simp [hmem]))]

theorem dropWhile_append_stop {α} (p : α → Bool) (xs : List α) (y : α)
    (ys : List α) (hx : ∀ x ∈ xs, p x = true) (hy : p y = false) :
    (xs ++ y :: ys).dropWhile p = y :: ys := by
  induction xs with
  | nil => simp [List.dropWhile_cons, hy]
  | cons a as ih =>
    have ha : p a = true := hx a (by simp)
    simp only [List.cons_append, List.dropWhile_cons, ha, if_true]
    exact ih (fun x hmem => hx x (by simp [hmem]))

theorem takeWhile_all {α} (p : α → Bool) (xs : List α)
    (hx : ∀ x ∈ xs, p x = true) : xs.takeWhile p = xs := by
  induction xs with
  | nil => rfl
  | cons a as ih =>
    have ha : p a = true := hx a (by simp)
    simp only [List.takeWhile_cons, ha, if_true]
    rw [ih (fun x hmem => hx x (by simp [hmem]))]

theorem dropWhile_all {α} (p : α → Bool) (xs : List α)
    (hx : ∀ x ∈ xs, p x = true) : xs.dropWhile p = [] := by
  induction xs with
  | nil => rfl
  | cons a as ih =>
    have ha : p a = true := hx a (by simp)
    simp only [List.dropWhile_cons, ha, if_true]
    exact ih (fun x hmem => hx x (by simp [hmem]))

theorem filterMap_id_map_some {α} (l : List (Option α)) (h : none ∉ l) :
    (l.filterMap id).map some = l := by
  induction l with
  | nil => rfl
  | cons o os ih =>
    match o with
    | none => exact absurd (by simp) h
    | some a =>
      simp only [List.filterMap_cons, id] at *
      simp only [List.map_cons]
      rw [ih (fun hmem => h (by simp [hmem]))]

theorem all_isSome_false_iff {α} (l : List (Option α)) :
    l.all (fun o => o.isSome) = false ↔ none ∈ l := by
  induction l with
  | nil => simp
  | cons o os ih =>
    match o with
    | none => simp
    | some a => simp [ih]

/-! ## Evaluation lemmas for the exception sequencing helpers -/

theorem exceptList_error_mem {α} {l : List (Except PyErr α)} {e : PyErr}
    (h : exceptList l = .error e) : Except.error e ∈ l := by
  induction l with
  | nil => simp [exceptList] at h
  | cons x xs ih =>
    match hx : x with
    | .error e2 =>
      simp only [exceptList] at h
      cases h
      simp
    | .ok a =>
      simp only [exceptList] at h
      match hrec : exceptList xs with
      | .error e2 =>
        rw [hrec] at h
        cases h
        exact List.mem_cons_of_mem _ (ih hrec)
      | .ok as => rw [hrec] at h; cases h

theorem exceptList_ok_of_forall {α} {l : List (Except PyErr α)}
    (h : ∀ x ∈ l, ∃ a, x = .ok a) : ∃ as, exceptList l = .ok as := by
  induction l with
  | nil => exact ⟨[], rfl⟩
  | cons x xs ih =>
    obtain ⟨a, ha⟩ := h x (by simp)
    obtain ⟨as, has⟩ := ih (fun y hy => h y (by simp [hy]))
    exact ⟨a :: as, by simp [exceptList, ha, has]⟩

theorem exceptList_ok_forall {α} {l : List (Except PyErr α)} {as : List α}
    (h : exceptList l = .ok as) :
    List.Forall₂ (fun x a => x = Except.ok a) l as := by
  induction l generalizing as with
  | nil => simp [exceptList] at h; subst h; exact List.Forall₂.nil
  | cons x xs ih =>
    match x with
    | .error e2 => simp [exceptList] at h
    | .ok a =>
      simp only [exceptList] at h
      match hrec : exceptList xs with
      | .error e2 => rw [hrec] at h; cases h
      | .ok bs =>
        rw [hrec] at h
        cases h
        exact List.Forall₂.cons rfl (ih hrec)

theorem mapExcept_error_mem {α β} {f : α → Except RenameErr β} {l : List α}
    {e : RenameErr} (h : mapExcept f l = .error e) : ∃ a ∈ l, f a = .error e := by
  induction l with
  | nil => simp [mapExcept] at h
  | cons x xs ih =>
    simp only [mapExcept] at h
    match hx : f x with
    | .error e2 =>
      rw [hx] at h
      cases h
      exact ⟨x, by simp, hx⟩
    | .ok b =>
      rw [hx] at h
      match hrec : mapExcept f xs with
      | .error e2 =>
        rw [hrec] at h
        cases h
        obtain ⟨a, hmem, ha⟩ := ih hrec
        exact ⟨a, by simp [hmem], ha⟩
      | .ok bs => rw [hrec] at h; cases h

theorem mapExcept_ok_of_forall {α β} {f : α → Except RenameErr β}
    {R : α → β → Prop} {l : List α}
    (h : ∀ a ∈ l, ∃ b, f a = .ok b ∧ R a b) :
    ∃ bs, mapExcept f l = .ok bs ∧ List.Forall₂ R l bs := by
  induction l with
  | nil => exact ⟨[], rfl, List.Forall₂.nil⟩
  | cons x xs ih =>
    obtain ⟨b, hb, hR⟩ := h x (by simp)
    obtain ⟨bs, hbs, hF⟩ := ih (fun y hy => h y (by simp [hy]))
    exact ⟨b :: bs, by simp [mapExcept, hb, hbs], List.Forall₂.cons hR hF⟩

theorem mapExcept_ok_forall {α β} {f : α → Except RenameErr β} {l : List α}
    {bs : List β} (h : mapExcept f l = .ok bs) :
    List.Forall₂ (fun a b => f a = Except.ok b) l bs := by
  induction l generalizing bs with
  | nil => simp [mapExcept] at h; subst h; exact List.Forall₂.nil
  | cons x xs ih =>
    simp only [mapExcept] at h
    match hx : f x with
    | .error e2 => rw [hx] at h; cases h
    | .ok b =>
      rw [hx] at h
      match hrec : mapExcept f xs with
      | .error e2 => rw [hrec] at h; cases h
      | .ok cs =>
        rw [hrec] at h
        cases h
        exact List.Forall₂.cons hx (ih hrec)

theorem forall2_mem_left {α β} {R : α → β → Prop} {l1 : List α}
    {l2 : List β} {a : α} (h : List.Forall₂ R l1 l2) (ha : a ∈ l1) :
    ∃ b ∈ l2, R a b := by
  induction h with
  | nil => cases ha
  | cons hr _ ih =>
    rcases List.mem_cons.mp ha with rfl | htail
    · exact ⟨_, by simp, hr⟩
    · obtain ⟨b, hmem, hb⟩ := ih htail
      exact ⟨b, by simp [hmem], hb⟩

theorem mapExcept_not_ok {α β} {f : α → Except RenameErr β} {l : List α}
    (h : ∃ a ∈ l, ∀ b, f a ≠ .ok b) : ∃ e, mapExcept f l = .error e := by
  match hres : mapExcept f l with
  | .error e => exact ⟨e, rfl⟩
  | .ok bs =>
    obtain ⟨a, hmem, ha⟩ := h
    have hall := mapExcept_ok_forall hres
    obtain ⟨b, _, hfa⟩ := forall2_mem_left hall hmem
    exact absurd hfa (ha b)

theorem optList_of_forall {α} {l : List (Option α)}
    (h : none ∉ l) : optList l = some (l.filterMap id) := by
  induction l with
  | nil => rfl
  | cons o os ih =>
    match o with
    | none => exact absurd (by simp) h
    | some a =>
      simp only [optList, List.filterMap_cons, id]
      rw [ih (fun hmem => h (by simp [hmem]))]
      rfl

/-! ## Evaluation lemmas for breakby -/

theorem breakbyAux_run (p : String → Bool) (ls : List String) :
    ∀ cur : List String, cur ≠ [] →
    breakbyAux p ls cur =
      (cur.reverse ++ ls.takeWhile (fun x => !p x)) ::
        breakbyAux p (ls.dropWhile (fun x => !p x)) [] := by
  induction ls with
  | nil =>
    intro cur hcur
    simp [breakbyAux, hcur]
  | cons l ls ih =>
    intro cur hcur
    by_cases hp : p l = true
    · simp only [breakbyAux, hcur, if_false, hp, if_true, List.takeWhile_cons,
        List.dropWhile_cons, Bool.not_true, List.append_nil]
      simp [breakbyAux, hp]
    · have hp2 : p l = false := by simpa using hp
      simp only [breakbyAux, hp2, List.takeWhile_cons, List.dropWhile_cons,
        Bool.not_false, if_false, if_true]
      rw [ih (l :: cur) (by simp)]
      simp

theorem breakby_cons_true {p : String → Bool} {l : String} (ls : List String)
    (h : p l = true) : breakby p (l :: ls) = breakby p ls := by
  simp [breakby, breakbyAux, h]

theorem breakby_cons_false {p : String → Bool} {l : String} (ls : List String)
    (h : p l = false) :
    breakby p (l :: ls) =
      (l :: ls.takeWhile (fun x => !p x)) ::
        breakby p (ls.dropWhile (fun x => !p x)) := by
  show breakbyAux p (l :: ls) [] = _
  simp only [breakbyAux, h, if_false]
  rw [breakbyAux_run p ls [l] (by simp)]
  rfl

theorem breakby_mem_ne_nil {p : String → Bool} {g : List String} :
    ∀ {ls cur : List String}, g ∈ breakbyAux p ls cur → g ≠ [] := by
  intro ls
  induction ls with
  | nil =>
    intro cur hmem
    by_cases hcur : cur = []
    · simp [breakbyAux, hcur] at hmem
    · simp only [breakbyAux, hcur, if_false, List.mem_singleton] at hmem
      subst hmem
      simpa using hcur
  | cons l ls ih =>
    intro cur hmem
    by_cases hp : p l = true
    · by_cases hcur : cur = []
      · simp only [breakbyAux, hp, hcur, if_true] at hmem
        exact ih hmem
      · simp only [breakbyAux, hp, hcur, if_true, if_false, List.mem_cons] at hmem
        rcases hmem with rfl | hmem
        · simpa using hcur
        · exact ih hmem
    · have hp2 : p l = false := by simpa using hp
      simp only [breakbyAux, hp2, if_false] at hmem
      exact ih hmem

theorem breakby_groups_ne_nil {p : String → Bool} {ls : List String}
    {g : List String} (h : g ∈ breakby p ls) : g ≠ [] :=
  breakby_mem_ne_nil h

/-! ## Decimal formatting round trips through Python int -/

theorem digitVal_digitCh : ∀ d : Nat, d < 10 → digitVal (digitCh d) = some d := by
  decide

theorem digitCh_isDigit : ∀ d : Nat, d < 10 → isDigitChar (digitCh d) = true := by
  decide

theorem digitCh_ne_underscore : ∀ d : Nat, d < 10 → digitCh d ≠ '_' := by
  decide

theorem decAux_eq_digits :
    ∀ (fuel n : Nat) (acc : List Char), 1 ≤ n → n ≤ fuel →
    decAux fuel n acc = ((Nat.digits 10 n).map digitCh).reverse ++ acc := by
  intro fuel
  induction fuel with
  | zero => intro n acc h1 h2; omega
  | succ fuel ih =>
    intro n acc h1 h2
    by_cases hn : n < 10
    · simp only [decAux, hn, if_true]
      rw [Nat.digits_def' (by norm_num : (1:ℕ) < 10) h1]
      have : n / 10 = 0 := Nat.div_eq_of_lt hn
      rw [this]
      simp [Nat.mod_eq_of_lt hn]
    · have hge : 10 ≤ n := Nat.le_of_not_lt hn
      simp only [decAux, hn, if_false]
      rw [ih (n / 10) _ (by omega) (by omega)]
      rw [Nat.digits_def' (by norm_num : (1:ℕ) < 10) h1]
      simp

theorem decChars_zero : decChars 0 = ['0'] := rfl

theorem decChars_pos (n : Nat) (h : 1 ≤ n) :
    decChars n = ((Nat.digits 10 n).map digitCh).reverse := by
  unfold decChars
  rw [decAux_eq_digits (n + 1) n [] h (by omega)]
  simp

theorem decChars_all_digit (n : Nat) :
    ∀ c ∈ decChars n, isDigitChar c = true := by
  by_cases h : n = 0
  · subst h; decide
  · rw [decChars_pos n (by omega)]
    intro c hc
    rw [List.mem_reverse] at hc
    obtain ⟨d, hd, rfl⟩ := List.mem_map.mp hc
    exact digitCh_isDigit d (Nat.digits_lt_base (by norm_num) hd)

theorem decChars_ne_nil (n : Nat) : decChars n ≠ [] := by
  by_cases h : n = 0
  · subst h; decide
  · rw [decChars_pos n (by omega)]
    simp [Nat.digits_ne_nil_iff_ne_zero.mpr h]

theorem pyIntLoop_digits :
    ∀ (ds : List Nat) (acc : Nat), (∀ d ∈ ds, d < 10) →
    pyIntLoop acc (ds.map digitCh) =
      some (ds.foldl (fun a d => a * 10 + d) acc) := by
  intro ds
  induction ds with
  | nil => intro acc _; rfl
  | cons d ds ih =>
    intro acc hlt
    have hd : d < 10 := hlt d (by simp)
    have hne : digitCh d ≠ '_' := digitCh_ne_underscore d hd
    simp only [List.map_cons, List.foldl_cons]
    rw [pyIntLoop.eq_def]
    simp only [if_neg hne]
    rw [digitVal_digitCh d hd]
    exact ih (acc * 10 + d) (fun x hx => hlt x (by simp [hx]))

theorem foldr_digits :
    ∀ n : Nat, (Nat.digits 10 n).foldr (fun d acc => acc * 10 + d) 0 = n := by
  intro n
  induction n using Nat.strong_induction_on with
  | _ n ih =>
    match n with
    | 0 => simp
    | m + 1 =>
      rw [Nat.digits_def' (by norm_num : (1:ℕ) < 10) (Nat.succ_pos m)]
      simp only [List.foldr_cons]
      rw [ih ((m + 1) / 10) (Nat.div_lt_self (Nat.succ_pos m) (by norm_num))]
      omega

theorem pyIntChars_decChars (n : Nat) : pyIntChars (decChars n) = some n := by
  by_cases h : n = 0
  · subst h; rfl
  · rw [decChars_pos n (by omega)]
    have hne : Nat.digits 10 n ≠ [] := Nat.digits_ne_nil_iff_ne_zero.mpr h
    have hlt : ∀ d ∈ (Nat.digits 10 n).reverse, d < 10 := by
      intro d hd
      exact Nat.digits_lt_base (by norm_num) (List.mem_reverse.mp hd)
    rw [← List.map_reverse]
    match hds : (Nat.digits 10 n).reverse with
    | [] => exact absurd (by simpa using hds) hne
    | d0 :: ds =>
      have hd0 : d0 < 10 := hlt d0 (by rw [hds]; simp)
      simp only [List.map_cons, pyIntChars, digitVal_digitCh d0 hd0]
      rw [pyIntLoop_digits ds d0 (fun x hx => hlt x (by rw [hds]; simp [hx]))]
      have : (d0 :: ds).foldl (fun a d => a * 10 + d) 0 = n := by
        rw [← hds, List.foldl_reverse]
        exact foldr_digits n
      simp only [List.foldl_cons, Nat.zero_mul, Nat.zero_add] at this
      rw [this]

theorem pyInt_decS (n : Nat) : pyInt (decS n) = some n :=
  pyIntChars_decChars n

/-! ## Structural lemmas about the association rewriter -/

theorem all_isSome_true_iff {α} (l : List (Option α)) :
    l.all (fun o => o.isSome) = true ↔ none ∉ l := by
  induction l with
  | nil => simp
  | cons o os ih =>
    match o with
    | none => simp
    | some a => simp [ih]

theorem mem_filterMap_id {α} {l : List (Option α)} {a : α} :
    a ∈ l.filterMap id ↔ some a ∈ l := by
  simp [List.mem_filterMap]

theorem lookupAll_ok_forall {m : List (String × String)} {p : String} :
    ∀ {ks : List String} {vs : List String}, lookupAll m p ks = .ok vs →
    List.Forall₂ (fun k v => lookupM m k = some v) ks vs := by
  intro ks
  induction ks with
  | nil => intro vs h; cases h; exact List.Forall₂.nil
  | cons k ks ih =>
    intro vs h
    simp only [lookupAll] at h
    match hk : lookupM m k with
    | none => rw [hk] at h; cases h
    | some v =>
      rw [hk] at h
      match hrec : lookupAll m p ks with
      | .error e => rw [hrec] at h; cases h
      | .ok ws =>
        rw [hrec] at h
        cases h
        exact List.Forall₂.cons hk (ih hrec)

theorem lookupAll_ok_of_cover {m : List (String × String)} {p : String} :
    ∀ {ks : List String}, (∀ k ∈ ks, (lookupM m k).isSome = true) →
    ∃ vs, lookupAll m p ks = .ok vs ∧
      List.Forall₂ (fun k v => lookupM m k = some v) ks vs := by
  intro ks
  induction ks with
  | nil => intro _; exact ⟨[], rfl, List.Forall₂.nil⟩
  | cons k ks ih =>
    intro h
    have hk := h k (by simp)
    match hlk : lookupM m k with
    | none => rw [hlk] at hk; cases hk
    | some v =>
      obtain ⟨vs, hvs, hF⟩ := ih (fun x hx => h x (by simp [hx]))
      exact ⟨v :: vs, by simp [lookupAll, hlk, hvs, Except.map], List.Forall₂.cons hlk hF⟩

theorem lookupAll_error {m : List (String × String)} {p : String} :
    ∀ {ks : List String} {e : RenameErr}, lookupAll m p ks = .error e →
    ∃ k ∈ ks, lookupM m k = none ∧ e = .nonExhaustive p k := by
  intro ks
  induction ks with
  | nil => intro e h; cases h
  | cons k ks ih =>
    intro e h
    simp only [lookupAll] at h
    match hk : lookupM m k with
    | none =>
      rw [hk] at h
      cases h
      exact ⟨k, by simp, hk, rfl⟩
    | some v =>
      rw [hk] at h
      match hrec : lookupAll m p ks with
      | .error e2 =>
        rw [hrec] at h
        cases h
        obtain ⟨k2, hmem, hk2, he⟩ := ih hrec
        exact ⟨k2, by simp [hmem], hk2, he⟩
      | .ok ws => rw [hrec] at h; cases h

theorem rename_assoc_ok_of_cover {m : List (String × String)} {p : String}
    {e : Effect} (h : ∀ k ∈ e.associations, (lookupM m k).isSome = true) :
    ∃ e2, rename_assoc m p e = .ok e2 ∧ MappedEffect m e e2 := by
  obtain ⟨vs, hvs, hF⟩ := lookupAll_ok_of_cover (p := p) h
  exact ⟨⟨e.cls, e.level, e.target, vs⟩, by simp [rename_assoc, hvs, Except.map],
    rfl, rfl, rfl, hF⟩

theorem rename_assoc_ok_forall {m : List (String × String)} {p : String}
    {e : Effect} {e2 : Effect} (h : rename_assoc m p e = .ok e2) :
    MappedEffect m e e2 := by
  simp only [rename_assoc] at h
  match hl : lookupAll m p e.associations with
  | .error e3 => rw [hl] at h; cases h
  | .ok vs =>
    rw [hl] at h
    cases h
    exact ⟨rfl, rfl, rfl, lookupAll_ok_forall hl⟩

theorem rename_assoc_error {m : List (String × String)} {p : String}
    {e : Effect} {er : RenameErr} (h : rename_assoc m p e = .error er) :
    ∃ k ∈ e.associations, lookupM m k = none ∧ er = .nonExhaustive p k := by
  simp only [rename_assoc] at h
  match hl : lookupAll m p e.associations with
  | .error e3 =>
    rw [hl] at h
    cases h
    exact lookupAll_error hl
  | .ok vs => rw [hl] at h; cases h

theorem forall2_map_some {α β} {R : α → β → Prop} {l1 : List α} {l2 : List β}
    (h : List.Forall₂ R l1 l2) :
    List.Forall₂ (fun oa ob => ∃ a b, oa = some a ∧ ob = some b ∧ R a b)
      (l1.map some) (l2.map some) := by
  induction h with
  | nil => exact List.Forall₂.nil
  | cons hr _ ih => exact List.Forall₂.cons ⟨_, _, rfl, rfl, hr⟩ ih

theorem completeSubrec_iff (sr : SubRecord) :
    completeSubrec sr = true ↔ (sr.effects ≠ [] ∧ none ∉ sr.effects) := by
  unfold completeSubrec
  rw [Bool.and_eq_true, all_isSome_true_iff]
  simp

theorem completeMut_iff (mu : Mutation) :
    completeMut mu = true ↔
      (mu.subrecs ≠ [] ∧ none ∉ mu.subrecs ∧
        ∀ sr, some sr ∈ mu.subrecs → completeSubrec sr = true) := by
  unfold completeMut
  rw [Bool.and_eq_true, List.all_eq_true]
  constructor
  · rintro ⟨h1, h2⟩
    refine ⟨by simpa using h1, ?_, ?_⟩
    · intro hmem
      simpa using h2 none hmem
    · intro sr hmem
      simpa using h2 (some sr) hmem
  · rintro ⟨h1, h2, h3⟩
    refine ⟨by simpa using h1, ?_⟩
    intro o hmem
    match o with
    | none => exact absurd hmem h2
    | some sr => simpa using h3 sr hmem

theorem completeRecord_iff (r : Record) :
    completeRecord r = true ↔
      (r.mutations ≠ [] ∧ none ∉ r.mutations ∧
        ∀ mu, some mu ∈ r.mutations → completeMut mu = true) := by
  unfold completeRecord
  rw [Bool.and_eq_true, List.all_eq_true]
  constructor
  · rintro ⟨h1, h2⟩
    refine ⟨by simpa using h1, ?_, ?_⟩
    · intro hmem
      simpa using h2 none hmem
    · intro mu hmem
      simpa using h2 (some mu) hmem
  · rintro ⟨h1, h2, h3⟩
    refine ⟨by simpa using h1, ?_⟩
    intro o hmem
    match o with
    | none => exact absurd hmem h2
    | some mu => simpa using h3 mu hmem

theorem mem_subrecAssocs {sr : SubRecord} {e : Effect} {k : String}
    (he : some e ∈ sr.effects) (hk : k ∈ e.associations) :
    k ∈ subrecAssocs sr := by
  unfold subrecAssocs
  rw [List.mem_flatMap]
  exact ⟨some e, he, hk⟩

theorem mem_mutAssocs {mu : Mutation} {sr : SubRecord} {k : String}
    (hs : some sr ∈ mu.subrecs) (hk : k ∈ subrecAssocs sr) :
    k ∈ mutAssocs mu := by
  unfold mutAssocs
  rw [List.mem_flatMap]
  exact ⟨some sr, hs, hk⟩

theorem mem_recordAssocs {r : Record} {mu : Mutation} {k : String}
    (hm : some mu ∈ r.mutations) (hk : k ∈ mutAssocs mu) :
    k ∈ recordAssocs r := by
  unfold recordAssocs
  rw [List.mem_flatMap]
  exact ⟨some mu, hm, hk⟩

theorem check_subrec_ok_of_cover {m : List (String × String)} {p : String}
    {mid : Nat} {sr : SubRecord} (hc : completeSubrec sr = true)
    (hcov : ∀ k ∈ subrecAssocs sr, (lookupM m k).isSome = true) :
    ∃ sr2, check_subrec m p mid sr = .ok sr2 ∧ MappedSubrec m sr sr2 := by
  obtain ⟨hne, hnh⟩ := (completeSubrec_iff sr).mp hc
  have hguard : ¬ (sr.effects = [] ∨ none ∈ sr.effects) := by
    rintro (h | h)
    · exact hne h
    · exact hnh h
  have heach : ∀ e ∈ sr.effects.filterMap id,
      ∃ e2, rename_assoc m p e = .ok e2 ∧ MappedEffect m e e2 := by
    intro e he
    refine rename_assoc_ok_of_cover ?_
    intro k hk
    exact hcov k (mem_subrecAssocs (mem_filterMap_id.mp he) hk)
  obtain ⟨es2, hes2, hF⟩ := mapExcept_ok_of_forall heach
  refine ⟨⟨sr.id, sr.description, es2.map some⟩, ?_, rfl, rfl, ?_⟩
  · simp [check_subrec, hguard, hes2, Except.map]
  · have := forall2_map_some hF
    rwa [filterMap_id_map_some sr.effects hnh] at this

theorem check_subrec_ok_forall {m : List (String × String)} {p : String}
    {mid : Nat} {sr : SubRecord} {sr2 : SubRecord}
    (h : check_subrec m p mid sr = .ok sr2) :
    completeSubrec sr = true ∧ MappedSubrec m sr sr2 := by
  simp only [check_subrec] at h
  by_cases hguard : sr.effects = [] ∨ none ∈ sr.effects
  · rw [if_pos hguard] at h; cases h
  · rw [if_neg hguard] at h
    push_neg at hguard
    have hcomp : completeSubrec sr = true :=
      (completeSubrec_iff sr).mpr ⟨hguard.1, hguard.2⟩
    match hme : mapExcept (rename_assoc m p) (sr.effects.filterMap id) with
    | .error e => rw [hme] at h; cases h
    | .ok es2 =>
      rw [hme] at h
      cases h
      refine ⟨hcomp, rfl, rfl, ?_⟩
      have hF := (mapExcept_ok_forall hme).imp
        (fun a b hab => rename_assoc_ok_forall hab)
      have := forall2_map_some hF
      rwa [filterMap_id_map_some sr.effects hguard.2] at this

theorem check_subrec_error {m : List (String × String)} {p : String}
    {mid : Nat} {sr : SubRecord} {er : RenameErr}
    (hc : completeSubrec sr = true) (h : check_subrec m p mid sr = .error er) :
    ∃ k ∈ subrecAssocs sr, lookupM m k = none ∧ er = .nonExhaustive p k := by
  obtain ⟨hne, hnh⟩ := (completeSubrec_iff sr).mp hc
  have hguard : ¬ (sr.effects = [] ∨ none ∈ sr.effects) := by
    rintro (h2 | h2)
    · exact hne h2
    · exact hnh h2
  simp only [check_subrec, if_neg hguard] at h
  match hme : mapExcept (rename_assoc m p) (sr.effects.filterMap id) with
  | .ok es2 => rw [hme] at h; cases h
  | .error e2 =>
    rw [hme] at h
    cases h
    obtain ⟨e, hmem, he⟩ := mapExcept_error_mem hme
    obtain ⟨k, hk, hlk, hkey⟩ := rename_assoc_error he
    exact ⟨k, mem_subrecAssocs (mem_filterMap_id.mp hmem) hk, hlk, hkey⟩

theorem check_mut_ok_of_cover {m : List (String × String)} {p : String}
    {mu : Mutation} (hc : completeMut mu = true)
    (hcov : ∀ k ∈ mutAssocs mu, (lookupM m k).isSome = true) :
    ∃ mu2, check_mut m p mu = .ok mu2 ∧ MappedMut m mu mu2 := by
  obtain ⟨hne, hnh, hsub⟩ := (completeMut_iff mu).mp hc
  have hguard : ¬ (mu.subrecs = [] ∨ none ∈ mu.subrecs) := by
    rintro (h | h)
    · exact hne h
    · exact hnh h
  have heach : ∀ sr ∈ mu.subrecs.filterMap id,
      ∃ sr2, check_subrec m p mu.id sr = .ok sr2 ∧ MappedSubrec m sr sr2 := by
    intro sr hs
    have hmem := mem_filterMap_id.mp hs
    refine check_subrec_ok_of_cover (hsub sr hmem) ?_
    intro k hk
    exact hcov k (mem_mutAssocs hmem hk)
  obtain ⟨srs2, hsrs2, hF⟩ := mapExcept_ok_of_forall heach
  refine ⟨⟨mu.id, mu.start, mu.stop, mu.ref, mu.alt, mu.description,
    srs2.map some⟩, ?_, rfl, rfl, rfl, rfl, rfl, rfl, ?_⟩
  · simp [check_mut, hguard, hsrs2, Except.map]
  · have := forall2_map_some hF
    rwa [filterMap_id_map_some mu.subrecs hnh] at this

theorem check_mut_ok_forall {m : List (String × String)} {p : String}
    {mu : Mutation} {mu2 : Mutation} (h : check_mut m p mu = .ok mu2) :
    completeMut mu = true ∧ MappedMut m mu mu2 := by
  simp only [check_mut] at h
  by_cases hguard : mu.subrecs = [] ∨ none ∈ mu.subrecs
  · rw [if_pos hguard] at h; cases h
  · rw [if_neg hguard] at h
    push_neg at hguard
    match hme : mapExcept (check_subrec m p mu.id) (mu.subrecs.filterMap id) with
    | .error e => rw [hme] at h; cases h
    | .ok srs2 =>
      rw [hme] at h
      cases h
      have hF := (mapExcept_ok_forall hme).imp
        (fun a b hab => check_subrec_ok_forall hab)
      have hcomp : completeMut mu = true := by
        refine (completeMut_iff mu).mpr ⟨hguard.1, hguard.2, ?_⟩
        intro sr hmem
        obtain ⟨sr2, _, hok, _⟩ :=
          forall2_mem_left hF (mem_filterMap_id.mpr hmem)
        exact hok
      refine ⟨hcomp, rfl, rfl, rfl, rfl, rfl, rfl, ?_⟩
      have hF2 := hF.imp (fun a b hab => hab.2)
      have := forall2_map_some hF2
      rwa [filterMap_id_map_some mu.subrecs hguard.2] at this

theorem check_mut_error {m : List (String × String)} {p : String}
    {mu : Mutation} {er : RenameErr} (hc : completeMut mu = true)
    (h : check_mut m p mu = .error er) :
    ∃ k ∈ mutAssocs mu, lookupM m k = none ∧ er = .nonExhaustive p k := by
  obtain ⟨hne, hnh, hsub⟩ := (completeMut_iff mu).mp hc
  have hguard : ¬ (mu.subrecs = [] ∨ none ∈ mu.subrecs) := by
    rintro (h2 | h2)
    · exact hne h2
    · exact hnh h2
  simp only [check_mut, if_neg hguard] at h
  match hme : mapExcept (check_subrec m p mu.id) (mu.subrecs.filterMap id) with
  | .ok srs2 => rw [hme] at h; cases h
  | .error e2 =>
    rw [hme] at h
    cases h
    obtain ⟨sr, hmem, hsr⟩ := mapExcept_error_mem hme
    have hmem2 := mem_filterMap_id.mp hmem
    obtain ⟨k, hk, hlk, hkey⟩ := check_subrec_error (hsub sr hmem2) hsr
    exact ⟨k, mem_mutAssocs hmem2 hk, hlk, hkey⟩

theorem rename_ok_of_cover {m : List (String × String)} {r : Record}
    (hv : m.all (fun kv => is_association kv.2) = true)
    (hc : completeRecord r = true)
    (hcov : ∀ k ∈ recordAssocs r, (lookupM m k).isSome = true) :
    ∃ r2, rename_associations m r = .ok r2 ∧ MappedRecord m r r2 := by
  obtain ⟨hne, hnh, hmut⟩ := (completeRecord_iff r).mp hc
  have hguard : ¬ (r.mutations = [] ∨ none ∈ r.mutations) := by
    rintro (h | h)
    · exact hne h
    · exact hnh h
  have heach : ∀ mu ∈ r.mutations.filterMap id,
      ∃ mu2, check_mut m r.protein mu = .ok mu2 ∧ MappedMut m mu mu2 := by
    intro mu hm
    have hmem := mem_filterMap_id.mp hm
    refine check_mut_ok_of_cover (hmut mu hmem) ?_
    intro k hk
    exact hcov k (mem_recordAssocs hmem hk)
  obtain ⟨mus2, hmus2, hF⟩ := mapExcept_ok_of_forall heach
  refine ⟨⟨r.protein, mus2.map some⟩, ?_, rfl, ?_⟩
  · simp [rename_associations, hv, hguard, hmus2, Except.map]
  · have := forall2_map_some hF
    rwa [filterMap_id_map_some r.mutations hnh] at this

theorem rename_ok_forall {m : List (String × String)} {r : Record}
    {r2 : Record} (h : rename_associations m r = .ok r2) :
    m.all (fun kv => is_association kv.2) = true ∧
      completeRecord r = true ∧ MappedRecord m r r2 := by
  simp only [rename_associations] at h
  by_cases hv : m.all (fun kv => is_association kv.2) = true
  · rw [if_neg (by simp [hv])] at h
    by_cases hguard : r.mutations = [] ∨ none ∈ r.mutations
    · rw [if_pos hguard] at h; cases h
    · rw [if_neg hguard] at h
      push_neg at hguard
      match hme : mapExcept (check_mut m r.protein) (r.mutations.filterMap id) with
      | .error e => rw [hme] at h; cases h
      | .ok mus2 =>
        rw [hme] at h
        cases h
        have hF := (mapExcept_ok_forall hme).imp
          (fun a b hab => check_mut_ok_forall hab)
        have hcomp : completeRecord r = true := by
          refine (completeRecord_iff r).mpr ⟨hguard.1, hguard.2, ?_⟩
          intro mu hmem
          obtain ⟨mu2, _, hok, _⟩ :=
            forall2_mem_left hF (mem_filterMap_id.mpr hmem)
          exact hok
        refine ⟨hv, hcomp, rfl, ?_⟩
        have hF2 := hF.imp (fun a b hab => hab.2)
        have := forall2_map_some hF2
        rwa [filterMap_id_map_some r.mutations hguard.2] at this
  · rw [if_pos (by simp [hv])] at h
    cases h

theorem rename_error_of_complete {m : List (String × String)} {r : Record}
    {er : RenameErr} (hv : m.all (fun kv => is_association kv.2) = true)
    (hc : completeRecord r = true) (h : rename_associations m r = .error er) :
    ∃ k ∈ recordAssocs r, lookupM m k = none ∧
      er = .nonExhaustive r.protein k := by
  obtain ⟨hne, hnh, hmut⟩ := (completeRecord_iff r).mp hc
  have hguard : ¬ (r.mutations = [] ∨ none ∈ r.mutations) := by
    rintro (h2 | h2)
    · exact hne h2
    · exact hnh h2
  simp only [rename_associations, if_neg (by simp [hv] : ¬ ¬ m.all
    (fun kv => is_association kv.2) = true), if_neg hguard] at h
  match hme : mapExcept (check_mut m r.protein) (r.mutations.filterMap id) with
  | .ok mus2 => rw [hme] at h; cases h
  | .error e2 =>
    rw [hme] at h
    cases h
    obtain ⟨mu, hmem, hmu⟩ := mapExcept_error_mem hme
    have hmem2 := mem_filterMap_id.mp hmem
    obtain ⟨k, hk, hlk, hkey⟩ := check_mut_error (hmut mu hmem2) hmu
    exact ⟨k, mem_recordAssocs hmem2 hk, hlk, hkey⟩

/-! ## Split and join inversion -/

theorem splitChar_ne_nil (sep : Char) (l : List Char) : splitChar sep l ≠ [] := by
  match l with
  | [] => simp [splitChar]
  | c :: rest =>
    simp only [splitChar]
    match splitChar sep rest with
    | [] => simp
    | h :: t =>
      by_cases hc : c = sep
      · simp [hc]
      · simp [hc]

theorem splitChar_no_sep (sep : Char) (xs : List Char) (h : sep ∉ xs) :
    splitChar sep xs = [xs] := by
  induction xs with
  | nil => rfl
  | cons x xs ih =>
    have hx : x ≠ sep := fun heq => h (by simp [heq])
    have hrec := ih (fun hmem => h (by simp [hmem]))
    simp only [splitChar, hrec]
    simp [hx]

theorem splitChar_append (sep : Char) (xs ys : List Char) (h : sep ∉ xs) :
    splitChar sep (xs ++ sep :: ys) = xs :: splitChar sep ys := by
  induction xs with
  | nil =>
    simp only [List.nil_append, splitChar]
    match hrec : splitChar sep ys with
    | [] => exact absurd hrec (splitChar_ne_nil sep ys)
    | h2 :: t => simp
  | cons x xs ih =>
    have hx : x ≠ sep := fun heq => h (by simp [heq])
    have hrec := ih (fun hmem => h (by simp [hmem]))
    simp only [List.cons_append, splitChar, List.append_eq]
    rw [hrec]
    simp [hx]

theorem joinChar_mem {sep : Char} {c : Char} :
    ∀ {ps : List (List Char)}, c ∈ joinChar sep ps →
    c = sep ∨ ∃ p ∈ ps, c ∈ p := by
  intro ps
  induction ps with
  | nil => intro h; cases h
  | cons p ps ih =>
    intro h
    match ps with
    | [] =>
      simp only [joinChar] at h
      exact Or.inr ⟨p, by simp, h⟩
    | q :: qs =>
      simp only [joinChar, List.mem_append, List.mem_cons] at h
      rcases h with hp | rfl | hrest
      · exact Or.inr ⟨p, by simp, hp⟩
      · exact Or.inl rfl
      · rcases ih hrest with hsep | ⟨r, hr, hc⟩
        · exact Or.inl hsep
        · exact Or.inr ⟨r, by simp [hr], hc⟩

theorem splitChar_joinChar (sep : Char) :
    ∀ ps : List (List Char), ps ≠ [] → (∀ p ∈ ps, sep ∉ p) →
    splitChar sep (joinChar sep ps) = ps := by
  intro ps
  induction ps with
  | nil => intro h; exact absurd rfl h
  | cons p ps ih =>
    intro _ hsep
    match ps with
    | [] =>
      simp only [joinChar]
      exact splitChar_no_sep sep p (hsep p (by simp))
    | q :: qs =>
      show splitChar sep (p ++ sep :: joinChar sep (q :: qs)) = _
      rw [splitChar_append sep p _ (hsep p (by simp))]
      rw [ih (by simp) (fun r hr => hsep r (by simp [hr]))]

/-! ## Field behaviour of the effect-line parser on a four-field line -/

theorem parse_effect_fields (s : String) (pre cls lvl tgt : List Char)
    (toks : List (List Char))
    (hs : s.data = pre ++ (cls ++ ('|' :: (lvl ++ ('|' :: (tgt ++ ('|' :: joinChar ';' toks)))))))
    (hpre : ∀ c ∈ pre, c = '>' ∨ c = ' ')
    (hcls : ∀ c ∈ cls, c ≠ '>' ∧ c ≠ ' ' ∧ c ≠ '|')
    (hlvl : '|' ∉ lvl) (htgt : '|' ∉ tgt)
    (htoks : ∀ t ∈ toks, '|' ∉ t ∧ ';' ∉ t) :
    parse_effect s =
      (if CLASSES.contains ⟨pyUpperChars cls⟩ then
        some ⟨⟨cls⟩, optQField lvl, optQField tgt,
          (toks.filter (· ≠ [])).map (⟨·⟩ : List Char → String)⟩
      else none) := by
  have hdrop : (pre ++ (cls ++ ('|' :: (lvl ++ ('|' :: (tgt ++ ('|' :: joinChar ';' toks))))))).dropWhile
      (fun c => c = '>' || c = ' ') =
      cls ++ ('|' :: (lvl ++ ('|' :: (tgt ++ ('|' :: joinChar ';' toks))))) := by
    have hpre2 : ∀ c ∈ pre, (fun c => c = '>' || c = ' ') c = true := by
      intro c hc
      rcases hpre c hc with rfl | rfl <;> simp
    match cls with
    | [] =>
      rw [List.nil_append]
      exact dropWhile_append_stop _ pre '|' _ hpre2 (by simp)
    | c :: cs =>
      obtain ⟨h1, h2, _⟩ := hcls c (by simp)
      rw [List.cons_append]
      exact dropWhile_append_stop _ pre c _ hpre2 (by simp [h1, h2])
  have hpipes : '|' ∉ joinChar ';' toks := by
    intro hmem
    rcases joinChar_mem hmem with h | ⟨t, ht, hc⟩
    · cases h
    · exact (htoks t ht).1 hc
  have hsplit : splitChar '|' (cls ++ ('|' :: (lvl ++ ('|' :: (tgt ++ ('|' :: joinChar ';' toks)))))) =
      [cls, lvl, tgt, joinChar ';' toks] := by
    rw [splitChar_append '|' cls _ (fun hmem => (hcls _ hmem).2.2 rfl)]
    rw [splitChar_append '|' lvl _ hlvl]
    rw [splitChar_append '|' tgt _ htgt]
    rw [splitChar_no_sep '|' _ hpipes]
  have hassoc : (splitChar ';' (joinChar ';' toks)).filter (· ≠ []) =
      toks.filter (· ≠ []) := by
    match toks with
    | [] => rfl
    | t :: ts =>
      rw [splitChar_joinChar ';' (t :: ts) (by simp)
        (fun r hr => (htoks r hr).2)]
  simp only [parse_effect]
  rw [hs, hdrop, hsplit]
  simp only [List.getD_cons_zero, List.getD_cons_succ]
  rw [hassoc]
  simp only [optQField]

/-! ## Error shape of the group parsers -/

theorem parse_subrec2_no_error {idc text : List Char} {rest : List String}
    {e : PyErr} (h : parse_subrec2 idc text rest = .error e) : False := by
  simp only [parse_subrec2] at h
  split at h <;> cases h

theorem parse_subrec_error_attr {g : List String} {e : PyErr} (hg : g ≠ [])
    (h : parse_subrec g = .error e) : e = .attributeError := by
  match g with
  | [] => exact absurd rfl hg
  | first :: rest =>
    simp only [parse_subrec] at h
    split at h
    · cases h; rfl
    · exact (parse_subrec2_no_error h).elim

theorem exceptList_subrecs_not_stop {body : List String}
    (h : exceptList ((breakby (· = "") (separate matchesSubpref "" body)).map
      parse_subrec) = .error .stopIteration) : False := by
  have hmem := exceptList_error_mem h
  obtain ⟨g2, hg2, hpe⟩ := List.mem_map.mp hmem
  have := parse_subrec_error_attr (breakby_groups_ne_nil hg2) hpe
  exact absurd this (by decide)

theorem parse_mut2_ok (idc refc startc stopc altc text : List Char)
    (rest : List String) :
    ∃ v, parse_mut2 idc refc startc stopc altc text rest = .ok v := by
  simp only [parse_mut2]
  rcases h1 : pyIntChars idc with _ | id
  · exact ⟨none, rfl⟩
  rcases h2 : pyIntChars startc with _ | start
  · exact ⟨none, rfl⟩
  rcases h3 : pyIntChars stopc with _ | stop
  · exact ⟨none, rfl⟩
  rcases hres : exceptList ((breakby (· = "")
      (separate matchesSubpref "" rest)).map parse_subrec) with e | subrecords
  · have hne : e ≠ .stopIteration := by
      intro heq
      subst heq
      exact exceptList_subrecs_not_stop hres
    refine ⟨none, ?_⟩
    match e with
    | .attributeError => rfl
    | .valueError => rfl
    | .stopIteration => exact absurd rfl hne
  · exact ⟨some ⟨id, start, stop, _, _, pyStrip ⟨text⟩, subrecords⟩, rfl⟩

theorem parse_mut_ok (g : List String) (hg : g ≠ []) :
    ∃ v, parse_mut g = .ok v := by
  match g with
  | [] => exact absurd rfl hg
  | first :: rest =>
    simp only [parse_mut]
    rcases hm : matchMutPatt first with _ | ⟨idc, refc, startc, stopc, altc, text⟩
    · exact ⟨none, rfl⟩
    · exact parse_mut2_ok idc refc startc stopc altc text rest

theorem parse_rec_ok (g : List String) (hg : g ≠ []) :
    ∃ r, parse_rec g = .ok r := by
  match g with
  | [] => exact absurd rfl hg
  | protein :: rest =>
    simp only [parse_rec]
    have hall : ∀ x ∈ (breakby (· = "") (separate matchesMutpref "" rest)).map
        parse_mut, ∃ v, x = .ok v := by
      intro x hx
      obtain ⟨g2, hg2, rfl⟩ := List.mem_map.mp hx
      exact parse_mut_ok g2 (breakby_groups_ne_nil hg2)
    obtain ⟨muts, hmuts⟩ := exceptList_ok_of_forall hall
    exact ⟨⟨protein, muts⟩, by rw [hmuts]⟩

/-! ## Claim theorems -/

/-- C10: parse is total.  For every finite list of input lines parse
returns a list of records and never raises: every group produced by the
sentinel-insertion-and-split pipeline is non-empty, so each unguarded next
call succeeds, and every parse failure inside a group is converted to a
hole by an optionable wrapper. -/
theorem c10_parse_total (handle : List String) :
    ∃ recs, parse handle = .ok recs := by
  simp only [parse]
  apply exceptList_ok_of_forall
  intro x hx
  obtain ⟨g, hg, rfl⟩ := List.mem_map.mp hx
  exact parse_rec_ok g (breakby_groups_ne_nil hg)

/-- C3: rename_associations fails, under every mapping, on every record
that has a hole at any depth or an empty mutation, sub-record or effect
sequence; completeRecord is false exactly on that union of records, and an
error result returns no record at all. -/
theorem c3_rename_fails_on_incomplete (m : List (String × String))
    (record : Record) (h : completeRecord record = false) :
    ∃ e, rename_associations m record = .error e := by
  match hres : rename_associations m record with
  | .error e => exact ⟨e, rfl⟩
  | .ok r2 =>
    have hc := (rename_ok_forall hres).2.1
    rw [h] at hc
    cases hc

/-- Witness for C3 on a record with an empty sub-record list (hole-free but
incomplete). -/
theorem c3_witness :
    completeRecord ⟨"P", [some ⟨1, 1, 2, none, none, "d", []⟩]⟩ = false ∧
    ∃ e, rename_associations []
      ⟨"P", [some ⟨1, 1, 2, none, none, "d", []⟩]⟩ = .error e :=
  ⟨by decide, c3_rename_fails_on_incomplete [] _ (by decide)⟩

/-- C6: a mapping with a value matching neither association pattern is
rejected with the malformed-mapping error on every record whatsoever, holes
or not, referenced or not: the value check runs before the hole check and
before any lookup. -/
theorem c6_malformed_mapping_rejected_first (m : List (String × String))
    (record : Record) (h : ∃ kv ∈ m, is_association kv.2 = false) :
    rename_associations m record = .error (.malformedMapping record.protein) := by
  have hall : m.all (fun kv => is_association kv.2) = false := by
    obtain ⟨kv, hmem, hkv⟩ := h
    exact List.all_eq_false.mpr ⟨kv, hmem, by simp [hkv]⟩
  simp [rename_associations, hall]

/-- Witness for C6: the bad value is never referenced and the record even
has a hole, yet the error is the malformed-mapping one. -/
theorem c6_witness :
    rename_associations [("k", "bad value")] ⟨"P", [none]⟩ =
      .error (.malformedMapping "P") :=
  c6_malformed_mapping_rejected_first [("k", "bad value")] ⟨"P", [none]⟩
    ⟨("k", "bad value"), by simp, by decide⟩

/-- C7 counterexample: a bare upper-alphanumeric code with no colon segment
matches neither association pattern, and a mapping carrying it as a value is
rejected as malformed even against a perfectly well-formed record, contrary
to the claim that the colon segments are optional. -/
theorem c7_counterexample :
    is_association "ABC" = false ∧
    rename_associations [("x", "ABC")]
      ⟨"P", [some ⟨1, 1, 2, some "A", some "T", "d",
        [some ⟨1, "s", [some ⟨"ORG", none, none, []⟩]⟩]⟩]⟩ =
      .error (.malformedMapping "P") := by
  constructor
  · decide
  · rfl

/-- C7 (amended): the confirmed pattern requires one or two colon-digit
segments, so a value made only of code characters, a bare CODE with no
colon, is malformed and the whole mapping is rejected. -/
theorem c7_bare_code_rejected (m : List (String × String)) (record : Record)
    (h : ∃ kv ∈ m, kv.2.data.all isCodeChar = true) :
    rename_associations m record = .error (.malformedMapping record.protein) := by
  obtain ⟨kv, hmem, hkv⟩ := h
  have hdrop : kv.2.data.dropWhile isCodeChar = [] :=
    dropWhile_all isCodeChar kv.2.data (fun x hx => List.all_eq_true.mp hkv x hx)
  have hia : is_association kv.2 = false := by
    simp only [is_association, assocPat, phantomAssocPat, hdrop]
    rfl
  have hall : m.all (fun kv => is_association kv.2) = false :=
    List.all_eq_false.mpr ⟨kv, hmem, by simp [hia]⟩
  simp [rename_associations, hall]

/-- Witness for the amended C7. -/
theorem c7_witness :
    rename_associations [("x", "ABC")] ⟨"Q", []⟩ =
      .error (.malformedMapping "Q") :=
  c7_bare_code_rejected [("x", "ABC")] ⟨"Q", []⟩
    ⟨("x", "ABC"), by simp, by decide⟩

/-- C2 counterexample: the serializer renders a mutation with absent ref and
alt with the literal word None in both position fields, not with empty
fields, because the Python f-string interpolates the None object; the
claimed line shape with empty fields is a different string. -/
theorem c2_counterexample :
    write_mut ⟨1, 10, 13, none, none, "description one", []⟩ =
      some ["\t<1> None|10-13|None description one"] ∧
    ("\t<1> None|10-13|None description one" : String) ≠
      "\t<1> |10-13| description one" := by
  constructor
  · rfl
  · decide

/-- C2 (amended): for every mutation with absent ref and alt whose
serialization succeeds, the mutation line renders both position fields as
the literal word None; the parser folds that token back to an absent value,
which is what makes the round trip hold. -/
theorem c2_absent_serializes_as_none_literal (mu : Mutation)
    (href : mu.ref = none) (halt : mu.alt = none) {ls : List String}
    (h : write_mut mu = some ls) :
    ∃ rest, ls = ("\t<" ++ decS mu.id ++ "> " ++ "None" ++ "|" ++
      decS mu.start ++ "-" ++ decS mu.stop ++ "|" ++ "None" ++ " " ++
      mu.description) :: rest := by
  simp only [write_mut, href, halt, pyShowOpt] at h
  rcases hopt : optList (mu.subrecs.map (fun o => o.bind write_subrec))
      with _ | blocks
  · rw [hopt] at h; cases h
  · rw [hopt] at h
    simp only [Option.map] at h
    cases h
    exact ⟨blocks.flatten, rfl⟩

/-- Witness for the amended C2. -/
theorem c2_witness :
    ∃ rest, ["\t<1> None|10-13|None description one"] =
      ("\t<" ++ decS 1 ++ "> " ++ "None" ++ "|" ++ decS 10 ++ "-" ++
        decS 13 ++ "|" ++ "None" ++ " " ++ "description one") :: rest :=
  c2_absent_serializes_as_none_literal
    ⟨1, 10, 13, none, none, "description one", []⟩ rfl rfl rfl

/-- Strings rebuilt from filtered character lists: commuting the filter
with the data projection. -/
theorem string_mk_data_filter (toks : List String) :
    (((toks.map String.data).filter (· ≠ [])).map
      (⟨·⟩ : List Char → String)) = toks.filter (· ≠ "") := by
  induction toks with
  | nil => rfl
  | cons t ts ih =>
    by_cases ht : t = ""
    · subst ht
      simpa using ih
    · have ht2 : t.data ≠ [] := fun hd => ht (by
        cases t
        simp at hd
        simp [hd])
      simp only [List.map_cons, List.filter_cons]
      rw [if_pos (by simpa using ht2), if_pos (by simpa using ht)]
      simp only [List.map_cons]
      rw [ih]

/-- C8 counterexample: the effect parser strips question marks from both
ends of the level field, so a leading question mark in a non-empty level is
removed, contrary to the claim that only trailing question marks are
stripped and a leading one is kept. -/
theorem c8_counterexample :
    parse_effect ">> ORG|?a|b|" =
      some ⟨"ORG", some "a", some "b", []⟩ ∧ ("a" : String) ≠ "?a" := by
  constructor
  · rfl
  · decide

/-- C8 (amended): on a four-field effect line built from a class, level,
target and semicolon-joined association tokens, the parser returns a hole
exactly when the upper-cased class is outside the fixed enumeration;
otherwise level and target have question marks stripped from both ends with
an empty result becoming absent, and the associations are split on
semicolons with empty tokens dropped, order kept and the survivors stored
verbatim. -/
theorem c8_effect_field_behaviour (cls lvl tgt : String) (toks : List String)
    (hcls : ∀ c ∈ cls.data, c ≠ '>' ∧ c ≠ ' ' ∧ c ≠ '|')
    (hlvl : '|' ∉ lvl.data) (htgt : '|' ∉ tgt.data)
    (htoks : ∀ t ∈ toks, '|' ∉ t.data ∧ ';' ∉ t.data) :
    parse_effect ⟨cls.data ++ ('|' :: (lvl.data ++ ('|' :: (tgt.data ++
        ('|' :: joinChar ';' (toks.map String.data))))))⟩ =
      (if CLASSES.contains ⟨pyUpperChars cls.data⟩ then
        some ⟨cls, optQField lvl.data, optQField tgt.data,
          toks.filter (· ≠ "")⟩
      else none) := by
  have htoks2 : ∀ t ∈ toks.map String.data, '|' ∉ t ∧ ';' ∉ t := by
    intro t ht
    obtain ⟨s, hs, rfl⟩ := List.mem_map.mp ht
    exact htoks s hs
  rw [parse_effect_fields ⟨cls.data ++ ('|' :: (lvl.data ++ ('|' :: (tgt.data ++
      ('|' :: joinChar ';' (toks.map String.data))))))⟩ [] cls.data lvl.data
    tgt.data (toks.map String.data) (by rw [List.nil_append])
    (by intro c hc; cases hc) hcls hlvl htgt htoks2, string_mk_data_filter]

/-- Witness for the amended C8. -/
theorem c8_witness :
    parse_effect ⟨("org" : String).data ++ ('|' :: (("?a?" : String).data ++
        ('|' :: (("" : String).data ++
        ('|' :: joinChar ';' (["X:1", "", "Y"].map String.data))))))⟩ =
      (if CLASSES.contains ⟨pyUpperChars ("org" : String).data⟩ then
        some ⟨"org", optQField ("?a?" : String).data,
          optQField ("" : String).data,
          (["X:1", "", "Y"].filter (· ≠ ""))⟩
      else none) :=
  c8_effect_field_behaviour "org" "?a?" "" ["X:1", "", "Y"]
    (by decide) (by decide) (by decide) (by decide)

/-- C5 counterexample: a sub-record group whose first line fails the header
pattern does not become a hole inside a still-successful mutation; the
AttributeError escapes parse_subrec, which catches only ValueError, and is
caught by the mutation wrapper, so the whole mutation parses to a hole and
its well-formed sibling sub-record is lost with it.  The record level keeps
going, so the record carries a single mutation hole. -/
theorem c5_counterexample :
    parse ["P1", "<1> A|1-2|T d", "[x] bad", "[2] ok", ">> ORG|||"] =
      .ok [⟨"P1", [none]⟩] := rfl

/-- C5 (amended): whenever some sub-record group of a mutation body starts
with a line that fails the sub-record header pattern, parse_mut returns a
hole for the entire mutation, whatever the mutation header was. -/
theorem c5_subrec_mismatch_holes_mutation (hdr : String) (body : List String)
    (h : ∃ g ∈ breakby (· = "") (separate matchesSubpref "" body),
      ∃ first rest, g = first :: rest ∧ matchSubrecPatt first = none) :
    parse_mut (hdr :: body) = .ok none := by
  obtain ⟨g, hg, first, rest2, rfl, hfail⟩ := h
  have hgerr : parse_subrec (first :: rest2) = .error .attributeError := by
    simp only [parse_subrec, hfail]
  have hnotok : ∀ as, exceptList ((breakby (· = "")
      (separate matchesSubpref "" body)).map parse_subrec) ≠ .ok as := by
    intro as hok
    have hF := exceptList_ok_forall hok
    have hmem : parse_subrec (first :: rest2) ∈
        (breakby (· = "") (separate matchesSubpref "" body)).map parse_subrec :=
      List.mem_map_of_mem _ hg
    obtain ⟨a, _, ha⟩ := forall2_mem_left hF hmem
    rw [hgerr] at ha
    cases ha
  simp only [parse_mut]
  rcases hm : matchMutPatt hdr with _ | ⟨idc, refc, startc, stopc, altc, text⟩
  · rfl
  · show parse_mut2 idc refc startc stopc altc text body = .ok none
    simp only [parse_mut2]
    rcases h1 : pyIntChars idc with _ | id
    · rfl
    rcases h2 : pyIntChars startc with _ | start
    · rfl
    rcases h3 : pyIntChars stopc with _ | stop
    · rfl
    rcases hres : exceptList ((breakby (· = "")
        (separate matchesSubpref "" body)).map parse_subrec) with e | subrecords
    · have hne : e ≠ .stopIteration := fun heq =>
        exceptList_subrecs_not_stop (heq ▸ hres)
      match e with
      | .attributeError => rfl
      | .valueError => rfl
      | .stopIteration => exact absurd rfl hne
    · exact absurd hres (hnotok subrecords)

/-- Witness for the amended C5. -/
theorem c5_witness :
    parse_mut ["<1> A|1-2|T d", "bad", "[2] ok"] = .ok none :=
  c5_subrec_mismatch_holes_mutation "<1> A|1-2|T d" ["bad", "[2] ok"]
    ⟨["bad"], by decide, "bad", [], rfl, by rfl⟩

/-! ## The rewrite is the identity on records without association
references, and a successful rewrite covers every reference -/

theorem forall2_eq_self {α} {R : α → α → Prop} :
    ∀ {l1 l2 : List α}, List.Forall₂ R l1 l2 →
    (∀ a ∈ l1, ∀ b, R a b → b = a) → l2 = l1 := by
  intro l1 l2 h
  induction h with
  | nil => intro _; rfl
  | cons hr htail ih =>
    intro hp
    rw [ih (fun a ha b hb => hp a (by simp [ha]) b hb),
      hp _ (by simp) _ hr]

theorem mappedEffect_eq {m : List (String × String)} {e e2 : Effect}
    (hM : MappedEffect m e e2) (h : e.associations = []) : e2 = e := by
  obtain ⟨h1, h2, h3, hF⟩ := hM
  rw [h] at hF
  have h4 : e2.associations = [] := List.forall₂_nil_left_iff.mp hF
  cases e
  cases e2
  simp_all

theorem mappedSubrec_eq {m : List (String × String)} {sr sr2 : SubRecord}
    (hM : MappedSubrec m sr sr2) (h : subrecAssocs sr = []) : sr2 = sr := by
  obtain ⟨h1, h2, hF⟩ := hM
  have heq : sr2.effects = sr.effects := by
    refine forall2_eq_self hF ?_
    intro oe hoe oe2 hrel
    obtain ⟨e, e2, rfl, rfl, hME⟩ := hrel
    have he : e.associations = [] := by
      rw [List.eq_nil_iff_forall_not_mem]
      intro k hk
      have hmem := mem_subrecAssocs hoe hk
      rw [h] at hmem
      cases hmem
    rw [mappedEffect_eq hME he]
  cases sr
  cases sr2
  simp_all

theorem mappedMut_eq {m : List (String × String)} {mu mu2 : Mutation}
    (hM : MappedMut m mu mu2) (h : mutAssocs mu = []) : mu2 = mu := by
  obtain ⟨h1, h2, h3, h4, h5, h6, hF⟩ := hM
  have heq : mu2.subrecs = mu.subrecs := by
    refine forall2_eq_self hF ?_
    intro os hos os2 hrel
    obtain ⟨sr, sr2, rfl, rfl, hMS⟩ := hrel
    have hs : subrecAssocs sr = [] := by
      rw [List.eq_nil_iff_forall_not_mem]
      intro k hk
      have hmem := mem_mutAssocs hos hk
      rw [h] at hmem
      cases hmem
    rw [mappedSubrec_eq hMS hs]
  cases mu
  cases mu2
  simp_all

theorem mappedRecord_eq {m : List (String × String)} {r r2 : Record}
    (hM : MappedRecord m r r2) (h : recordAssocs r = []) : r2 = r := by
  obtain ⟨h1, hF⟩ := hM
  have heq : r2.mutations = r.mutations := by
    refine forall2_eq_self hF ?_
    intro om hom om2 hrel
    obtain ⟨mu, mu2, rfl, rfl, hMM⟩ := hrel
    have hs : mutAssocs mu = [] := by
      rw [List.eq_nil_iff_forall_not_mem]
      intro k hk
      have hmem := mem_recordAssocs hom hk
      rw [h] at hmem
      cases hmem
    rw [mappedMut_eq hMM hs]
  cases r
  cases r2
  simp_all

theorem mappedEffect_cover {m : List (String × String)} {e e2 : Effect}
    (hM : MappedEffect m e e2) :
    ∀ k ∈ e.associations, (lookupM m k).isSome = true := by
  obtain ⟨_, _, _, hF⟩ := hM
  intro k hk
  obtain ⟨v, _, hv⟩ := forall2_mem_left hF hk
  rw [hv]
  rfl

theorem mappedRecord_cover {m : List (String × String)} {r r2 : Record}
    (hM : MappedRecord m r r2) :
    ∀ k ∈ recordAssocs r, (lookupM m k).isSome = true := by
  obtain ⟨_, hF⟩ := hM
  intro k hk
  rw [recordAssocs, List.mem_flatMap] at hk
  obtain ⟨om, hom, hk2⟩ := hk
  match om with
  | none => exact absurd hk2 (List.not_mem_nil k)
  | some mu =>
    have hk2b : k ∈ mutAssocs mu := hk2
    obtain ⟨om2, _, mu', mu2, heq, _, hMM⟩ := forall2_mem_left hF hom
    cases heq
    obtain ⟨_, _, _, _, _, _, hFm⟩ := hMM
    rw [mutAssocs, List.mem_flatMap] at hk2b
    obtain ⟨os, hos, hk3⟩ := hk2b
    match os with
    | none => exact absurd hk3 (List.not_mem_nil k)
    | some sr =>
      have hk3b : k ∈ subrecAssocs sr := hk3
      obtain ⟨os2, _, sr', sr2, heq2, _, hMS⟩ := forall2_mem_left hFm hos
      cases heq2
      obtain ⟨_, _, hFs⟩ := hMS
      rw [subrecAssocs, List.mem_flatMap] at hk3b
      obtain ⟨oe, hoe, hk4⟩ := hk3b
      match oe with
      | none => exact absurd hk4 (List.not_mem_nil k)
      | some e =>
        have hk4b : k ∈ e.associations := hk4
        obtain ⟨oe2, _, e', e2, heq3, _, hME⟩ := forall2_mem_left hFs hoe
        cases heq3
        exact mappedEffect_cover hME k hk4b

/-- C9: on a complete record none of whose effects carries any association
reference (recordAssocs is empty precisely when every associations list is
empty), rename_associations succeeds under every mapping with well-formed
values, the empty mapping included, and returns the record unchanged: each
empty-association effect is rebuilt with an empty association list, and
non-emptiness is never demanded of an associations list. -/
theorem c9_empty_assocs_pass (m : List (String × String)) (r : Record)
    (hc : completeRecord r = true)
    (hv : m.all (fun kv => is_association kv.2) = true)
    (hempty : recordAssocs r = []) :
    rename_associations m r = .ok r := by
  have hcov : ∀ k ∈ recordAssocs r, (lookupM m k).isSome = true := by
    rw [hempty]
    intro k hk
    cases hk
  obtain ⟨r2, hok, hM⟩ := rename_ok_of_cover hv hc hcov
  rw [hok, mappedRecord_eq hM hempty]

/-- Witness for C9 under the empty mapping. -/
theorem c9_witness :
    rename_associations []
      ⟨"P", [some ⟨1, 1, 2, some "A", some "T", "d",
        [some ⟨1, "s", [some ⟨"ORG", none, none, []⟩]⟩]⟩]⟩ =
      .ok ⟨"P", [some ⟨1, 1, 2, some "A", some "T", "d",
        [some ⟨1, "s", [some ⟨"ORG", none, none, []⟩]⟩]⟩]⟩ :=
  c9_empty_assocs_pass [] _ (by decide) (by decide) (by decide)

/-- C4 counterexample: a hole-free record with one mutation whose
sub-record sequence is empty fails under the empty mapping (whose values
are trivially well-formed and which covers the no references present), so
hole-freedom alone is not enough for rename_associations to succeed: the
non-emptiness of every child sequence is also required. -/
theorem c4_counterexample :
    rename_associations [] ⟨"P", [some ⟨1, 1, 2, none, none, "d", []⟩]⟩ =
      .error (.malformedSubrecs "P" 1) ∧
    none ∉ [some (⟨1, 1, 2, none, none, "d", []⟩ : Mutation)] ∧
    (⟨1, 1, 2, none, none, "d", []⟩ : Mutation).subrecs = [] := by
  refine ⟨rfl, ?_, rfl⟩
  decide

/-- C4 (amended): for every complete record (hole-free with non-empty
mutation, sub-record and effect sequences) and every mapping with
well-formed values, if the mapping covers every association reference in
the record then rename_associations succeeds and replaces each effect
association list element-wise through the mapping, in order and with the
same length, every other field unchanged (the MappedRecord relation); and
if some reference is missing from the mapping it fails with the
non-exhaustive error naming a missing key. -/
theorem c4_rename_on_complete (m : List (String × String)) (r : Record)
    (hc : completeRecord r = true)
    (hv : m.all (fun kv => is_association kv.2) = true) :
    ((∀ k ∈ recordAssocs r, (lookupM m k).isSome = true) →
      ∃ r2, rename_associations m r = .ok r2 ∧ MappedRecord m r r2) ∧
    ((∃ k ∈ recordAssocs r, lookupM m k = none) →
      ∃ k ∈ recordAssocs r, lookupM m k = none ∧
        rename_associations m r = .error (.nonExhaustive r.protein k)) := by
  constructor
  · exact fun hcov => rename_ok_of_cover hv hc hcov
  · rintro ⟨k0, hk0, hmiss⟩
    match hres : rename_associations m r with
    | .ok r2 =>
      have hM := (rename_ok_forall hres).2.2
      have hcov := mappedRecord_cover hM k0 hk0
      rw [hmiss] at hcov
      cases hcov
    | .error er =>
      obtain ⟨k, hk, hlk, hker⟩ := rename_error_of_complete hv hc hres
      exact ⟨k, hk, hlk, by rw [hker]⟩

/-- Witness for the amended C4, on the end-to-end example of the
specification. -/
theorem c4_witness :
    ((∀ k ∈ recordAssocs ⟨"P12345", [some ⟨1, 10, 13, some "A", some "T",
        "description one", [some ⟨1, "subrecord text",
        [some ⟨"ORG", some "+", some "liver", ["X:1", "Y:2"]⟩]⟩]⟩]⟩,
      (lookupM [("X:1", "X:100"), ("Y:2", "Y:200")] k).isSome = true) →
      ∃ r2, rename_associations [("X:1", "X:100"), ("Y:2", "Y:200")]
          ⟨"P12345", [some ⟨1, 10, 13, some "A", some "T",
            "description one", [some ⟨1, "subrecord text",
            [some ⟨"ORG", some "+", some "liver", ["X:1", "Y:2"]⟩]⟩]⟩]⟩ =
          .ok r2 ∧
        MappedRecord [("X:1", "X:100"), ("Y:2", "Y:200")]
          ⟨"P12345", [some ⟨1, 10, 13, some "A", some "T",
            "description one", [some ⟨1, "subrecord text",
            [some ⟨"ORG", some "+", some "liver", ["X:1", "Y:2"]⟩]⟩]⟩]⟩ r2) ∧
    ((∃ k ∈ recordAssocs ⟨"P12345", [some ⟨1, 10, 13, some "A", some "T",
        "description one", [some ⟨1, "subrecord text",
        [some ⟨"ORG", some "+", some "liver", ["X:1", "Y:2"]⟩]⟩]⟩]⟩,
      lookupM [("X:1", "X:100"), ("Y:2", "Y:200")] k = none) →
      ∃ k ∈ recordAssocs ⟨"P12345", [some ⟨1, 10, 13, some "A", some "T",
        "description one", [some ⟨1, "subrecord text",
        [some ⟨"ORG", some "+", some "liver", ["X:1", "Y:2"]⟩]⟩]⟩]⟩,
        lookupM [("X:1", "X:100"), ("Y:2", "Y:200")] k = none ∧
        rename_associations [("X:1", "X:100"), ("Y:2", "Y:200")]
          ⟨"P12345", [some ⟨1, 10, 13, some "A", some "T",
            "description one", [some ⟨1, "subrecord text",
            [some ⟨"ORG", some "+", some "liver", ["X:1", "Y:2"]⟩]⟩]⟩]⟩ =
          .error (.nonExhaustive "P12345" k)) :=
  c4_rename_on_complete [("X:1", "X:100"), ("Y:2", "Y:200")]
    ⟨"P12345", [some ⟨1, 10, 13, some "A", some "T", "description one",
      [some ⟨1, "subrecord text",
      [some ⟨"ORG", some "+", some "liver", ["X:1", "Y:2"]⟩]⟩]⟩]⟩
    (by decide) (by decide)

/-! ## Round trip of one effect line -/

theorem stripQChars_id (l : List Char) (hh : l.head? ≠ some '?')
    (hl : l.getLast? ≠ some '?') : stripQChars l = l := by
  unfold stripQChars
  have h1 : l.dropWhile (· = '?') = l := by
    match l with
    | [] => rfl
    | c :: rest =>
      have : c ≠ '?' := fun heq => hh (by simp [heq])
      simp [List.dropWhile_cons, this]
  rw [h1]
  have h2 : l.reverse.dropWhile (· = '?') = l.reverse := by
    match hrev : l.reverse with
    | [] => rfl
    | d :: ds =>
      have hd : l.getLast? = some d := by
        rw [← List.head?_reverse, hrev]
        rfl
      have : d ≠ '?' := fun heq => hl (by rw [hd, heq])
      simp [List.dropWhile_cons, this]
  rw [h2, List.reverse_reverse]

theorem optQField_orEmpty (o : Option String) (h : qFieldOk o = true) :
    optQField (orEmpty o).data = o := by
  match o with
  | none => rfl
  | some s =>
    simp only [qFieldOk, Bool.and_eq_true] at h
    obtain ⟨⟨⟨hne, hpipe⟩, hh⟩, hl⟩ := h
    have hne2 : s.data ≠ [] := by simpa using hne
    have hstrip : stripQChars s.data = s.data := by
      refine stripQChars_id s.data ?_ ?_
      · simpa using hh
      · simpa using hl
    simp only [orEmpty, optQField, hstrip]
    rw [if_neg hne2]

theorem wfEffect_parts {e : Effect} (h : wfEffect e = true) :
    CLASSES.contains ⟨pyUpperChars e.cls.data⟩ = true ∧
    (∀ c ∈ e.cls.data, c ≠ '>' ∧ c ≠ ' ' ∧ c ≠ '|') ∧
    qFieldOk e.level = true ∧ qFieldOk e.target = true ∧
    (∀ t ∈ e.associations, assocTokOk t = true) := by
  simp only [wfEffect, Bool.and_eq_true] at h
  obtain ⟨⟨⟨⟨hc, hchars⟩, hlvl⟩, htgt⟩, hassoc⟩ := h
  refine ⟨hc, ?_, hlvl, htgt, ?_⟩
  · intro c hc2
    have := List.all_eq_true.mp hchars c hc2
    simp only [Bool.and_eq_true] at this
    refine ⟨?_, ?_, ?_⟩
    · simpa using this.1.1
    · simpa using this.1.2
    · simpa using this.2
  · intro t ht
    exact List.all_eq_true.mp hassoc t ht

theorem assocTokOk_parts {t : String} (h : assocTokOk t = true) :
    t ≠ "" ∧ ∀ c ∈ t.data, isSpaceChar c = false ∧ c ≠ '|' ∧ c ≠ ';' := by
  simp only [assocTokOk, Bool.and_eq_true] at h
  obtain ⟨hne, hall⟩ := h
  constructor
  · intro heq
    subst heq
    simpa using hne
  · intro c hc
    have := List.all_eq_true.mp hall c hc
    simp only [Bool.and_eq_true] at this
    refine ⟨?_, ?_, ?_⟩
    · simpa using this.1.1
    · simpa using this.1.2
    · simpa using this.2

theorem parse_effect_effLine (e : Effect) (h : wfEffect e = true) :
    parse_effect (effLine e) = some e := by
  obtain ⟨hc, hchars, hlvl, htgt, hassoc⟩ := wfEffect_parts h
  have hlvl2 : '|' ∉ (orEmpty e.level).data := by
    match he : e.level with
    | none => simp [orEmpty]
    | some s =>
      rw [he] at hlvl
      simp only [qFieldOk, Bool.and_eq_true] at hlvl
      intro hmem
      have := List.all_eq_true.mp hlvl.1.1.2 _ hmem
      simpa using this
  have htgt2 : '|' ∉ (orEmpty e.target).data := by
    match he : e.target with
    | none => simp [orEmpty]
    | some s =>
      rw [he] at htgt
      simp only [qFieldOk, Bool.and_eq_true] at htgt
      intro hmem
      have := List.all_eq_true.mp htgt.1.1.2 _ hmem
      simpa using this
  have htoks : ∀ t ∈ e.associations.map String.data, '|' ∉ t ∧ ';' ∉ t := by
    intro t ht
    obtain ⟨s, hs, rfl⟩ := List.mem_map.mp ht
    obtain ⟨_, hall⟩ := assocTokOk_parts (hassoc s hs)
    exact ⟨fun hmem => (hall _ hmem).2.1 rfl, fun hmem => (hall _ hmem).2.2 rfl⟩
  rw [parse_effect_fields (effLine e) ['>', '>', ' '] e.cls.data
    (orEmpty e.level).data (orEmpty e.target).data
    (e.associations.map String.data) rfl
    (by decide)
    hchars hlvl2 htgt2 htoks]
  rw [if_pos hc, string_mk_data_filter]
  have hfilter : e.associations.filter (· ≠ "") = e.associations :=
    List.filter_eq_self.mpr (fun t ht => by
      simpa using (assocTokOk_parts (hassoc t ht)).1)
  rw [hfilter, optQField_orEmpty e.level hlvl, optQField_orEmpty e.target htgt]

/-! ## The strip applied by the parser pipeline undoes the indentation -/

theorem stripChars_pad (pad body : List Char)
    (hpad : ∀ c ∈ pad, isSpaceChar c = true) (hne : body ≠ [])
    (hhead : ∀ c, body.head? = some c → isSpaceChar c = false)
    (hlast : ∀ c, body.getLast? = some c → isSpaceChar c = false) :
    stripChars (pad ++ body) = body := by
  unfold stripChars
  rcases hb : body with _ | ⟨c, rest⟩
  · exact absurd hb hne
  · have hc : isSpaceChar c = false := hhead c (by rw [hb]; rfl)
    rw [hb] at hlast
    rw [dropWhile_append_stop isSpaceChar pad c rest hpad hc]
    rcases hrev : (c :: rest).reverse with _ | ⟨d, ds⟩
    · simp at hrev
    · have hd : (c :: rest).getLast? = some d := by
        rw [← List.head?_reverse, hrev]
        rfl
      have hd2 : isSpaceChar d = false := hlast d hd
      rw [List.dropWhile_cons, if_neg (by simp [hd2])]
      rw [← hrev, List.reverse_reverse]

theorem strippedNE_parts (s : String) (h : strippedNE s = true) :
    s.data ≠ [] ∧ (∀ c, s.data.head? = some c → isSpaceChar c = false) ∧
    (∀ c, s.data.getLast? = some c → isSpaceChar c = false) := by
  obtain ⟨l⟩ := s
  unfold strippedNE at h
  rcases l with _ | ⟨c, rest⟩
  · simp at h
  · rcases hl : (c :: rest).getLast? with _ | d
    · exact absurd (List.getLast?_eq_none_iff.mp hl) (by simp)
    · rw [hl] at h
      simp only [Bool.and_eq_true, Bool.not_eq_true'] at h
      obtain ⟨h1, h2⟩ := h
      refine ⟨by simp, ?_, ?_⟩
      · intro c2 hc2
        simp only [List.head?_cons, Option.some.injEq] at hc2
        subst hc2
        exact h1
      · intro c2 hc2
        cases hc2
        exact h2

theorem pyStrip_strippedNE (s : String) (h : strippedNE s = true) :
    pyStrip s = s := by
  obtain ⟨hne, hh, hl⟩ := strippedNE_parts s h
  unfold pyStrip
  have := stripChars_pad [] s.data (by simp) hne hh hl
  rw [List.nil_append] at this
  rw [this]

theorem joinTokens_last_not_space (ts : List String)
    (h : ∀ t ∈ ts, assocTokOk t = true) :
    ∀ c, ('|' :: joinChar ';' (ts.map String.data)).getLast? = some c →
      isSpaceChar c = false := by
  intro c hc
  rcases hj : joinChar ';' (ts.map String.data) with _ | ⟨j, js⟩
  · rw [hj] at hc
    simp at hc
    subst hc
    rfl
  · rw [hj, List.getLast?_cons_cons] at hc
    have hmem : c ∈ j :: js := List.mem_of_mem_getLast? hc
    rw [← hj] at hmem
    rcases joinChar_mem hmem with rfl | ⟨t, ht, hct⟩
    · rfl
    · obtain ⟨s, hs, rfl⟩ := List.mem_map.mp ht
      exact ((assocTokOk_parts (h s hs)).2 c hct).1

theorem getLast?_space_cons (l : List Char) (hne : l ≠ []) :
    (' ' :: l).getLast? = l.getLast? := by
  rcases l with _ | ⟨d, ds⟩
  · exact absurd rfl hne
  · exact List.getLast?_cons_cons

theorem writeEff_data (e : Effect) :
    (write_eff e).data = ['\t', '\t', '\t'] ++ (effLine e).data := by
  have h1 : ("\t\t\t>> " : String).data = ['\t', '\t', '\t', '>', '>', ' '] := rfl
  have h2 : ("|" : String).data = ['|'] := rfl
  simp [write_eff, effLine, joinAssocs, String.data_append, h1, h2]

theorem pyStrip_writeEff (e : Effect) (h : wfEffect e = true) :
    pyStrip (write_eff e) = effLine e := by
  obtain ⟨hc, hchars, hlvl, htgt, hassoc⟩ := wfEffect_parts h
  have hshape : (effLine e).data =
      ('>' :: '>' :: ' ' :: (e.cls.data ++ ('|' :: ((orEmpty e.level).data ++
        ('|' :: (orEmpty e.target).data))))) ++
      ('|' :: joinChar ';' (e.associations.map String.data)) := by
    simp [effLine, List.append_assoc]
  show (⟨stripChars (write_eff e).data⟩ : String) = effLine e
  rw [writeEff_data e]
  rw [stripChars_pad ['\t', '\t', '\t'] (effLine e).data (by decide)
    (by simp [effLine])
    (by intro c2 hc2; simp only [effLine] at hc2; cases hc2; rfl)
    (by
      intro c2 hc2
      rw [hshape, List.getLast?_append_of_ne_nil _ (by simp)] at hc2
      exact joinTokens_last_not_space e.associations hassoc c2 hc2)]

theorem descOk_parts (s : String) (h : descOk s = true) :
    strippedNE s = true ∧ ∀ c ∈ s.data, c ≠ '\n' := by
  simp only [descOk, Bool.and_eq_true] at h
  refine ⟨h.1, ?_⟩
  intro c hc
  have := List.all_eq_true.mp h.2 c hc
  simpa using this

theorem subrecHeader_data (sr : SubRecord) :
    ("\t\t[" ++ decS sr.id ++ "] " ++ sr.description).data =
      ['\t', '\t'] ++ (subrecHeadS sr).data := by
  have h1 : ("\t\t[" : String).data = ['\t', '\t', '['] := rfl
  have h2 : ("] " : String).data = [']', ' '] := rfl
  simp [subrecHeadS, decS, String.data_append, h1, h2]

theorem pyStrip_subrecHeader (sr : SubRecord) (h : descOk sr.description = true) :
    pyStrip ("\t\t[" ++ decS sr.id ++ "] " ++ sr.description) = subrecHeadS sr := by
  obtain ⟨hstr, _⟩ := descOk_parts sr.description h
  obtain ⟨hne, _, hlast⟩ := strippedNE_parts sr.description hstr
  have hshape : (subrecHeadS sr).data =
      ('[' :: (decChars sr.id ++ [']'])) ++ (' ' :: sr.description.data) := by
    simp [subrecHeadS, List.append_assoc]
  show (⟨stripChars ("\t\t[" ++ decS sr.id ++ "] " ++ sr.description).data⟩ : String)
      = subrecHeadS sr
  rw [subrecHeader_data sr]
  rw [stripChars_pad ['\t', '\t'] (subrecHeadS sr).data (by decide)
    (by simp [subrecHeadS])
    (by intro c2 hc2; simp only [subrecHeadS] at hc2; cases hc2; rfl)
    (by
      intro c2 hc2
      rw [hshape, List.getLast?_append_of_ne_nil _ (by simp),
        getLast?_space_cons _ hne] at hc2
      exact hlast c2 hc2)]

theorem mutHeader_data (mu : Mutation) :
    ("\t<" ++ decS mu.id ++ "> " ++ pyShowOpt mu.ref ++ "|" ++ decS mu.start ++
      "-" ++ decS mu.stop ++ "|" ++ pyShowOpt mu.alt ++ " " ++
      mu.description).data = ['\t'] ++ (mutHeadS mu).data := by
  have h1 : ("\t<" : String).data = ['\t', '<'] := rfl
  have h2 : ("> " : String).data = ['>', ' '] := rfl
  have h3 : ("|" : String).data = ['|'] := rfl
  have h4 : ("-" : String).data = ['-'] := rfl
  have h5 : (" " : String).data = [' '] := rfl
  simp [mutHeadS, decS, String.data_append, h1, h2, h3, h4, h5]

theorem pyStrip_mutHeader (mu : Mutation) (h : descOk mu.description = true) :
    pyStrip ("\t<" ++ decS mu.id ++ "> " ++ pyShowOpt mu.ref ++ "|" ++
      decS mu.start ++ "-" ++ decS mu.stop ++ "|" ++ pyShowOpt mu.alt ++ " " ++
      mu.description) = mutHeadS mu := by
  obtain ⟨hstr, _⟩ := descOk_parts mu.description h
  obtain ⟨hne, _, hlast⟩ := strippedNE_parts mu.description hstr
  have hshape : (mutHeadS mu).data =
      ('<' :: (decChars mu.id ++ ('>' :: ' ' :: ((pyShowOpt mu.ref).data ++
        ('|' :: (decChars mu.start ++ ('-' :: (decChars mu.stop ++
        ('|' :: (pyShowOpt mu.alt).data))))))))) ++
      (' ' :: mu.description.data) := by
    simp [mutHeadS, List.append_assoc]
  show (⟨stripChars ("\t<" ++ decS mu.id ++ "> " ++ pyShowOpt mu.ref ++ "|" ++
      decS mu.start ++ "-" ++ decS mu.stop ++ "|" ++ pyShowOpt mu.alt ++ " " ++
      mu.description).data⟩ : String) = mutHeadS mu
  rw [mutHeader_data mu]
  rw [stripChars_pad ['\t'] (mutHeadS mu).data (by decide)
    (by simp [mutHeadS])
    (by intro c2 hc2; simp only [mutHeadS] at hc2; cases hc2; rfl)
    (by
      intro c2 hc2
      rw [hshape, List.getLast?_append_of_ne_nil _ (by simp),
        getLast?_space_cons _ hne] at hc2
      exact hlast c2 hc2)]

/-! ## The serializer computes the line shapes on well-formed trees -/

theorem filterMap_id_map_option_map {α β} (f : α → β) (l : List (Option α)) :
    (l.map (fun o => o.map f)).filterMap id = (l.filterMap id).map f := by
  induction l with
  | nil => rfl
  | cons o os ih =>
    match o with
    | none => simpa using ih
    | some a =>
      simp only [List.map_cons, List.filterMap_cons, id]
      simp [ih]

theorem wfSubrec_parts {sr : SubRecord} (h : wfSubrec sr = true) :
    descOk sr.description = true ∧ sr.effects ≠ [] ∧ none ∉ sr.effects ∧
    ∀ e, some e ∈ sr.effects → wfEffect e = true := by
  simp only [wfSubrec, Bool.and_eq_true] at h
  obtain ⟨⟨hd, hne⟩, hall⟩ := h
  refine ⟨hd, by simpa using hne, ?_, ?_⟩
  · intro hmem
    simpa using List.all_eq_true.mp hall none hmem
  · intro e hmem
    simpa using List.all_eq_true.mp hall (some e) hmem

theorem wfMut_parts {mu : Mutation} (h : wfMut mu = true) :
    refAltOk mu.ref = true ∧ refAltOk mu.alt = true ∧
    descOk mu.description = true ∧ mu.subrecs ≠ [] ∧ none ∉ mu.subrecs ∧
    ∀ sr, some sr ∈ mu.subrecs → wfSubrec sr = true := by
  simp only [wfMut, Bool.and_eq_true] at h
  obtain ⟨⟨⟨⟨hr, ha⟩, hd⟩, hne⟩, hall⟩ := h
  refine ⟨hr, ha, hd, by simpa using hne, ?_, ?_⟩
  · intro hmem
    simpa using List.all_eq_true.mp hall none hmem
  · intro sr hmem
    simpa using List.all_eq_true.mp hall (some sr) hmem

theorem wfRecord_parts {r : Record} (h : wfRecord r = true) :
    proteinOk r.protein = true ∧ r.mutations ≠ [] ∧ none ∉ r.mutations ∧
    ∀ mu, some mu ∈ r.mutations → wfMut mu = true := by
  simp only [wfRecord, Bool.and_eq_true] at h
  obtain ⟨⟨hp, hne⟩, hall⟩ := h
  refine ⟨hp, by simpa using hne, ?_, ?_⟩
  · intro hmem
    simpa using List.all_eq_true.mp hall none hmem
  · intro mu hmem
    simpa using List.all_eq_true.mp hall (some mu) hmem

theorem write_subrec_wf (sr : SubRecord) (h : wfSubrec sr = true) :
    write_subrec sr = some (subrecLines sr) := by
  obtain ⟨_, _, hnh, _⟩ := wfSubrec_parts h
  have hnone : none ∉ sr.effects.map (fun o => o.map write_eff) := by
    intro hmem
    obtain ⟨o, ho, hoe⟩ := List.mem_map.mp hmem
    match o with
    | none => exact hnh ho
    | some e => simp at hoe
  unfold write_subrec subrecLines
  rw [optList_of_forall hnone, filterMap_id_map_option_map]
  rfl

theorem optList_bind_write_subrec (l : List (Option SubRecord))
    (h : ∀ o ∈ l, ∃ sr, o = some sr ∧ wfSubrec sr = true) :
    optList (l.map (fun o => o.bind write_subrec)) =
      some ((l.filterMap id).map subrecLines) := by
  induction l with
  | nil => rfl
  | cons o os ih =>
    obtain ⟨sr, rfl, hsr⟩ := h o (by simp)
    have hrec := ih (fun o2 ho2 => h o2 (by simp [ho2]))
    simp only [List.map_cons, Option.some_bind, List.filterMap_cons, id,
      optList, write_subrec_wf sr hsr, hrec]
    rfl

theorem write_mut_wf (mu : Mutation) (h : wfMut mu = true) :
    write_mut mu = some (mutLines mu) := by
  obtain ⟨_, _, _, _, hnh, hsub⟩ := wfMut_parts h
  unfold write_mut mutLines
  rw [optList_bind_write_subrec mu.subrecs (fun o ho => by
    match o with
    | none => exact absurd ho hnh
    | some sr => exact ⟨sr, rfl, hsub sr ho⟩)]
  rfl

theorem optList_bind_write_mut (l : List (Option Mutation))
    (h : ∀ o ∈ l, ∃ mu, o = some mu ∧ wfMut mu = true) :
    optList (l.map (fun o => o.bind write_mut)) =
      some ((l.filterMap id).map mutLines) := by
  induction l with
  | nil => rfl
  | cons o os ih =>
    obtain ⟨mu, rfl, hmu⟩ := h o (by simp)
    have hrec := ih (fun o2 ho2 => h o2 (by simp [ho2]))
    simp only [List.map_cons, Option.some_bind, List.filterMap_cons, id,
      optList, write_mut_wf mu hmu, hrec]
    rfl

theorem write_record_wf (r : Record) (h : wfRecord r = true) :
    write_record r = some (recordLines r) := by
  obtain ⟨_, _, hnh, hmut⟩ := wfRecord_parts h
  unfold write_record recordLines
  rw [optList_bind_write_mut r.mutations (fun o ho => by
    match o with
    | none => exact absurd ho hnh
    | some mu => exact ⟨mu, rfl, hmut mu ho⟩)]
  rfl

theorem write_singleton_wf (T : Record) (h : wfRecord T = true) :
    write [T] = some (recordLines T) := by
  unfold write
  simp only [List.map_cons, List.map_nil, optList, write_record_wf T h]
  simp

theorem proteinOk_parts {s : String} (h : proteinOk s = true) :
    strippedNE s = true ∧ ∀ c, s.data.head? = some c → PREF.contains c = false := by
  simp only [proteinOk, Bool.and_eq_true] at h
  obtain ⟨hs, hp⟩ := h
  refine ⟨hs, ?_⟩
  intro c hc
  rcases hd : s.data with _ | ⟨c2, rest⟩
  · rw [hd] at hc
    cases hc
  · rw [hd] at hc hp
    cases hc
    simpa using hp

theorem mapStrip_subrecLines (sr : SubRecord) (h : wfSubrec sr = true) :
    (subrecLines sr).map pyStrip = subrecLinesS sr := by
  obtain ⟨hd, _, hnh, heff⟩ := wfSubrec_parts h
  simp only [subrecLines, subrecLinesS, List.map_cons, List.map_map]
  rw [pyStrip_subrecHeader sr hd]
  congr 1
  refine List.map_eq_map_iff.mpr ?_
  intro e he
  exact pyStrip_writeEff e (heff e (mem_filterMap_id.mp he))

theorem mapStrip_mutLines (mu : Mutation) (h : wfMut mu = true) :
    (mutLines mu).map pyStrip = mutLinesS mu := by
  obtain ⟨_, _, hd, _, hnh, hsub⟩ := wfMut_parts h
  simp only [mutLines, mutLinesS, List.map_cons]
  rw [pyStrip_mutHeader mu hd]
  congr 1
  rw [List.map_flatten, List.map_map]
  congr 1
  refine List.map_eq_map_iff.mpr ?_
  intro sr hsr
  exact mapStrip_subrecLines sr (hsub sr (mem_filterMap_id.mp hsr))

theorem mapStrip_recordLines (r : Record) (h : wfRecord r = true) :
    (recordLines r).map pyStrip = recordLinesS r := by
  obtain ⟨hp, _, hnh, hmut⟩ := wfRecord_parts h
  simp only [recordLines, recordLinesS, List.map_cons]
  rw [pyStrip_strippedNE r.protein (proteinOk_parts hp).1]
  congr 1
  rw [List.map_flatten, List.map_map]
  congr 1
  refine List.map_eq_map_iff.mpr ?_
  intro mu hmu
  exact mapStrip_mutLines mu (hmut mu (mem_filterMap_id.mp hmu))

/-! ## Boundary predicates on the stripped lines -/

theorem string_ne_empty {s : String} {c : Char} {rest : List Char}
    (h : s.data = c :: rest) : s ≠ "" := by
  intro heq
  subst heq
  cases h

theorem matchesSubpref_subrecHeadS (sr : SubRecord) :
    matchesSubpref (subrecHeadS sr) = true := by
  have hdata : (subrecHeadS sr).data =
      '[' :: (decChars sr.id ++ (']' :: ' ' :: sr.description.data)) := rfl
  simp only [matchesSubpref, hdata]
  rw [dropWhile_append_stop isDigitChar (decChars sr.id) ']' _
    (decChars_all_digit sr.id) (by decide)]
  rw [takeWhile_append_stop isDigitChar (decChars sr.id) ']' _
    (decChars_all_digit sr.id) (by decide)]
  simp [decChars_ne_nil sr.id]

theorem matchesMutpref_mutHeadS (mu : Mutation) :
    matchesMutpref (mutHeadS mu) = true := by
  have hdata : (mutHeadS mu).data =
      '<' :: (decChars mu.id ++ ('>' :: ' ' :: ((pyShowOpt mu.ref).data ++
        ('|' :: (decChars mu.start ++ ('-' :: (decChars mu.stop ++
        ('|' :: ((pyShowOpt mu.alt).data ++
          (' ' :: mu.description.data)))))))))) := rfl
  simp only [matchesMutpref, hdata]
  rw [dropWhile_append_stop isDigitChar (decChars mu.id) '>' _
    (decChars_all_digit mu.id) (by decide)]
  rw [takeWhile_append_stop isDigitChar (decChars mu.id) '>' _
    (decChars_all_digit mu.id) (by decide)]
  simp [decChars_ne_nil mu.id]

theorem matchesSubpref_effLine (e : Effect) :
    matchesSubpref (effLine e) = false := rfl

theorem matchesMutpref_subrecHeadS (sr : SubRecord) :
    matchesMutpref (subrecHeadS sr) = false := rfl

theorem matchesMutpref_effLine (e : Effect) :
    matchesMutpref (effLine e) = false := rfl

theorem firstNotPref_mutHeadS (mu : Mutation) :
    firstNotPref (mutHeadS mu) = false := rfl

theorem firstNotPref_subrecHeadS (sr : SubRecord) :
    firstNotPref (subrecHeadS sr) = false := rfl

theorem firstNotPref_effLine (e : Effect) :
    firstNotPref (effLine e) = false := rfl

/-! ## Sentinel insertion and regrouping invert the flattening of blocks -/

theorem separate_no_match (p : String → Bool) (sep : String)
    (tl : List String) (h : ∀ l ∈ tl, p l = false) :
    separate p sep tl = tl := by
  induction tl with
  | nil => rfl
  | cons l ls ih =>
    have hl := h l (by simp)
    simp only [separate, List.flatMap_cons, hl, Bool.false_eq_true, if_false]
    show [l] ++ separate p sep ls = l :: ls
    rw [ih (fun x hx => h x (by simp [hx]))]
    rfl

theorem separate_append (p : String → Bool) (sep : String)
    (xs ys : List String) :
    separate p sep (xs ++ ys) = separate p sep xs ++ separate p sep ys := by
  simp [separate]

theorem separate_cons_match (p : String → Bool) (sep : String) (hd : String)
    (tl : List String) (hp : p hd = true) (htl : ∀ l ∈ tl, p l = false) :
    separate p sep (hd :: tl) = sep :: hd :: tl := by
  simp only [separate, List.flatMap_cons, hp, if_true]
  show [sep, hd] ++ separate p sep tl = sep :: hd :: tl
  rw [separate_no_match p sep tl htl]
  rfl

theorem breakby_separate_blocks (p : String → Bool) (blocks : List (List String))
    (h : ∀ b ∈ blocks, ∃ hd tl, b = hd :: tl ∧ p hd = true ∧
      (∀ l ∈ tl, p l = false) ∧ (∀ l ∈ b, l ≠ "")) :
    breakby (· = "") (separate p "" blocks.flatten) = blocks := by
  induction blocks with
  | nil => rfl
  | cons b bs ih =>
    obtain ⟨hd, tl, hb, hphd, htl, hne⟩ := h b (by simp)
    subst hb
    rw [List.flatten_cons, separate_append,
      separate_cons_match p "" hd tl hphd htl]
    have hq0 : (("" : String) = "") = True := by simp
    rw [List.cons_append, List.cons_append,
      breakby_cons_true _ (by simp),
      breakby_cons_false _ (by simp [hne hd (by simp)])]
    have hrec := ih (fun b2 hb2 => h b2 (by simp [hb2]))
    match hbs : bs with
    | [] =>
      simp only [List.flatten_nil]
      rw [show separate p "" [] = [] from rfl]
      rw [List.append_nil]
      rw [takeWhile_all _ tl (by
        intro x hx
        simp [hne x (by simp [hx])])]
      rw [dropWhile_all _ tl (by
        intro x hx
        simp [hne x (by simp [hx])])]
      rfl
    | b2 :: bs2 =>
      obtain ⟨hd2, tl2, hb2, hphd2, htl2, hne2⟩ := h b2 (by simp [hbs])
      have hsep2 : separate p "" (b2 :: bs2).flatten =
          "" :: hd2 :: (tl2 ++ separate p "" bs2.flatten) := by
        rw [List.flatten_cons, separate_append, hb2,
          separate_cons_match p "" hd2 tl2 hphd2 htl2]
        rfl
      rw [hsep2]
      rw [takeWhile_append_stop _ tl "" _ (by
        intro x hx
        simp [hne x (by simp [hx])]) (by simp)]
      rw [dropWhile_append_stop _ tl "" _ (by
        intro x hx
        simp [hne x (by simp [hx])]) (by simp)]
      rw [← hsep2]
      rw [hrec]

/-! ## The header patterns recover the serialized captures -/

theorem word_not_space (c : Char) (h : isWordChar c = true) :
    isSpaceChar c = false := by
  match hs : isSpaceChar c with
  | false => rfl
  | true =>
    simp only [isSpaceChar, Bool.or_eq_true, decide_eq_true_eq] at hs
    rcases hs with ((((rfl | rfl) | rfl) | rfl) | rfl) | rfl <;>
      exact absurd h (by decide)

theorem digit_word (c : Char) (h : isDigitChar c = true) :
    isWordChar c = true := by
  simp only [isDigitChar] at h
  simp [isWordChar, Char.isAlphanum, h]

theorem decChars_all_word (n : Nat) :
    ∀ c ∈ decChars n, isWordChar c = true :=
  fun c hc => digit_word c (decChars_all_digit n c hc)

theorem refAltOk_show {o : Option String} (h : refAltOk o = true) :
    (pyShowOpt o).data ≠ [] ∧
    (∀ c ∈ (pyShowOpt o).data, isWordChar c = true) := by
  match o with
  | none => exact ⟨by decide, by decide⟩
  | some s =>
    simp only [refAltOk, wordStr, Bool.and_eq_true, decide_eq_true_eq] at h
    exact ⟨h.1.1, fun c hc => List.all_eq_true.mp h.1.2 c hc⟩

theorem dropWhile_head_false {α} (p : α → Bool) (l : List α) (c : α)
    (hh : l.head? = some c) (hc : p c = false) : l.dropWhile p = l := by
  rcases l with _ | ⟨d, rest⟩
  · cases hh
  · cases hh
    simp [List.dropWhile_cons, hc]

theorem dotAfterSpaces_nospace (d : Char) (rest : List Char)
    (hd : isSpaceChar d = false) (hnn : ∀ c ∈ d :: rest, c ≠ '\n') :
    dotAfterSpaces (d :: rest) = some (d :: rest) := by
  simp only [dotAfterSpaces]
  rw [if_neg (by simp [hd]), if_neg (by simpa using hnn d (by simp))]
  rw [takeWhile_all _ rest (by
    intro x hx
    simpa using hnn x (by simp [hx]))]

theorem dotAfterSpaces_space (l : List Char) (hne : l ≠ [])
    (hh : ∀ c, l.head? = some c → isSpaceChar c = false)
    (hnn : ∀ c ∈ l, c ≠ '\n') :
    dotAfterSpaces (' ' :: l) = some l := by
  rcases l with _ | ⟨d, rest⟩
  · exact absurd rfl hne
  · have hd : isSpaceChar d = false := hh d rfl
    show (match dotAfterSpaces (d :: rest) with
      | some t => some t
      | none => if (' ' : Char) = '\n' then none
          else some (' ' :: (d :: rest).takeWhile (fun x => decide (x ≠ '\n')))) =
      some (d :: rest)
    rw [dotAfterSpaces_nospace d rest hd hnn]

theorem spacePlusDot_space (l : List Char) (hne : l ≠ [])
    (hh : ∀ c, l.head? = some c → isSpaceChar c = false)
    (hnn : ∀ c ∈ l, c ≠ '\n') :
    spacePlusDot (' ' :: l) = some l := by
  show dotAfterSpaces l = some l
  rcases l with _ | ⟨d, rest⟩
  · exact absurd rfl hne
  · exact dotAfterSpaces_nospace d rest (hh d rfl) hnn

theorem matchSubrecPatt_build (idc text : List Char)
    (hid : ∀ c ∈ idc, isDigitChar c = true) (hidne : idc ≠ [])
    (htne : text ≠ [])
    (hth : ∀ c, text.head? = some c → isSpaceChar c = false)
    (htnn : ∀ c ∈ text, c ≠ '\n') :
    matchSubrecPatt ⟨'[' :: (idc ++ (']' :: ' ' :: text))⟩ =
      some (idc, text) := by
  simp only [matchSubrecPatt]
  rw [takeWhile_append_stop isDigitChar idc ']' _ hid (by decide)]
  rw [dropWhile_append_stop isDigitChar idc ']' _ hid (by decide)]
  rw [if_neg (by simpa using hidne)]
  show subrecPattText idc (' ' :: text) = some (idc, text)
  simp only [subrecPattText]
  rw [dotAfterSpaces_space text htne hth htnn]

theorem mutPattAlt_build (idc refc startc stopc altc text : List Char)
    (halt : ∀ c ∈ altc, isWordChar c = true) (haltne : altc ≠ [])
    (htne : text ≠ [])
    (hth : ∀ c, text.head? = some c → isSpaceChar c = false)
    (htnn : ∀ c ∈ text, c ≠ '\n') :
    mutPattAlt idc refc startc stopc (altc ++ (' ' :: text)) =
      some (idc, refc, startc, stopc, altc, text) := by
  simp only [mutPattAlt]
  rw [takeWhile_append_stop isWordChar altc ' ' _ halt (by decide)]
  rw [dropWhile_append_stop isWordChar altc ' ' _ halt (by decide)]
  rw [if_neg (by simpa using haltne)]
  rw [spacePlusDot_space text htne hth htnn]

theorem mutPattStop_build (idc refc startc stopc r5 : List Char)
    (hstop : ∀ c ∈ stopc, isDigitChar c = true) (hstopne : stopc ≠ []) :
    mutPattStop idc refc startc (stopc ++ ('|' :: r5)) =
      mutPattAlt idc refc startc stopc r5 := by
  simp only [mutPattStop]
  rw [takeWhile_append_stop isDigitChar stopc '|' _ hstop (by decide)]
  rw [dropWhile_append_stop isDigitChar stopc '|' _ hstop (by decide)]
  rw [if_neg (by simpa using hstopne)]
  rfl

theorem mutPattStart_build (idc refc startc r4 : List Char)
    (hstart : ∀ c ∈ startc, isDigitChar c = true) (hstartne : startc ≠ []) :
    mutPattStart idc refc (startc ++ ('-' :: r4)) =
      mutPattStop idc refc startc r4 := by
  simp only [mutPattStart]
  rw [takeWhile_append_stop isDigitChar startc '-' _ hstart (by decide)]
  rw [dropWhile_append_stop isDigitChar startc '-' _ hstart (by decide)]
  rw [if_neg (by simpa using hstartne)]
  rfl

theorem mutPattRef_build (idc refc r3 : List Char)
    (href : ∀ c ∈ refc, isWordChar c = true) (hrefne : refc ≠ []) :
    mutPattRef idc (refc ++ ('|' :: r3)) = mutPattStart idc refc r3 := by
  simp only [mutPattRef]
  rw [takeWhile_append_stop isWordChar refc '|' _ href (by decide)]
  rw [dropWhile_append_stop isWordChar refc '|' _ href (by decide)]
  rw [if_neg (by simpa using hrefne)]
  rfl

theorem mutPattId_build (idc r1 : List Char)
    (hid : ∀ c ∈ idc, isWordChar c = true) (hidne : idc ≠ []) :
    mutPattId (idc ++ ('>' :: r1)) =
      mutPattRef idc (r1.dropWhile isSpaceChar) := by
  simp only [mutPattId]
  rw [takeWhile_append_stop isWordChar idc '>' _ hid (by decide)]
  rw [dropWhile_append_stop isWordChar idc '>' _ hid (by decide)]
  rw [if_neg (by simpa using hidne)]
  rfl

theorem matchMutPatt_build (idc refc startc stopc altc text : List Char)
    (hid : ∀ c ∈ idc, isWordChar c = true) (hidne : idc ≠ [])
    (href : ∀ c ∈ refc, isWordChar c = true) (hrefne : refc ≠ [])
    (hstart : ∀ c ∈ startc, isDigitChar c = true) (hstartne : startc ≠ [])
    (hstop : ∀ c ∈ stopc, isDigitChar c = true) (hstopne : stopc ≠ [])
    (halt : ∀ c ∈ altc, isWordChar c = true) (haltne : altc ≠ [])
    (htne : text ≠ [])
    (hth : ∀ c, text.head? = some c → isSpaceChar c = false)
    (htnn : ∀ c ∈ text, c ≠ '\n') :
    matchMutPatt ⟨'<' :: (idc ++ ('>' :: ' ' :: (refc ++ ('|' :: (startc ++
      ('-' :: (stopc ++ ('|' :: (altc ++ (' ' :: text))))))))))⟩ =
      some (idc, refc, startc, stopc, altc, text) := by
  show mutPattId (idc ++ ('>' :: ' ' :: (refc ++ ('|' :: (startc ++
    ('-' :: (stopc ++ ('|' :: (altc ++ (' ' :: text)))))))))) = _
  rw [show ('>' : Char) :: ' ' :: (refc ++ ('|' :: (startc ++ ('-' :: (stopc ++
      ('|' :: (altc ++ (' ' :: text)))))))) = '>' :: (' ' :: (refc ++ ('|' ::
      (startc ++ ('-' :: (stopc ++ ('|' :: (altc ++ (' ' :: text))))))))) from rfl]
  rw [mutPattId_build idc _ hid hidne]
  have hdropsp : (' ' :: (refc ++ ('|' :: (startc ++ ('-' :: (stopc ++
      ('|' :: (altc ++ (' ' :: text))))))))).dropWhile isSpaceChar =
      refc ++ ('|' :: (startc ++ ('-' :: (stopc ++
      ('|' :: (altc ++ (' ' :: text))))))) := by
    rw [List.dropWhile_cons, if_pos (by decide)]
    rcases hrc : refc with _ | ⟨rc, rcs⟩
    · exact absurd hrc hrefne
    · rw [List.cons_append, List.dropWhile_cons,
        if_neg (by simp [word_not_space rc (href rc (by rw [hrc]; simp))])]
  rw [hdropsp]
  rw [mutPattRef_build idc refc _ href hrefne]
  rw [mutPattStart_build idc refc startc _ hstart hstartne]
  rw [mutPattStop_build idc refc startc stopc _ hstop hstopne]
  rw [mutPattAlt_build idc refc startc stopc altc text halt haltne htne hth htnn]

/-! ## Round trip of each grouped block -/

theorem exceptList_map_ok {α β} (f : α → β) (l : List α) :
    exceptList (l.map (fun a => (Except.ok (f a) : Except PyErr β))) =
      .ok (l.map f) := by
  induction l with
  | nil => rfl
  | cons a as ih => simp [exceptList, ih]

theorem noneFold_show (o : Option String) (h : refAltOk o = true) :
    (if pyLower ⟨(pyShowOpt o).data⟩ = "none" then none
     else some (⟨(pyShowOpt o).data⟩ : String)) = o := by
  match o with
  | none => rfl
  | some s =>
    simp only [refAltOk, Bool.and_eq_true, decide_eq_true_eq] at h
    have h2 : pyLower s ≠ "none" := h.2
    simp only [pyShowOpt]
    rw [if_neg (by
      intro heq
      exact h2 (by
        have : (⟨s.data⟩ : String) = s := rfl
        rwa [this] at heq))]

theorem parse_subrec_linesS (sr : SubRecord) (h : wfSubrec sr = true) :
    parse_subrec (subrecLinesS sr) = .ok (some sr) := by
  obtain ⟨hd2, hne, hnh, heff⟩ := wfSubrec_parts h
  obtain ⟨hstr, hnn⟩ := descOk_parts sr.description hd2
  obtain ⟨hdne, hdh, _⟩ := strippedNE_parts sr.description hstr
  simp only [subrecLinesS, parse_subrec]
  rw [show subrecHeadS sr =
    ⟨'[' :: (decChars sr.id ++ (']' :: ' ' :: sr.description.data))⟩ from rfl]
  rw [matchSubrecPatt_build (decChars sr.id) sr.description.data
    (decChars_all_digit _) (decChars_ne_nil _) hdne hdh hnn]
  show parse_subrec2 (decChars sr.id) sr.description.data
    ((sr.effects.filterMap id).map effLine) = .ok (some sr)
  simp only [parse_subrec2, pyIntChars_decChars]
  have hmap : ((sr.effects.filterMap id).map effLine).map parse_effect =
      sr.effects := by
    rw [List.map_map]
    have h2 : (sr.effects.filterMap id).map (parse_effect ∘ effLine) =
        (sr.effects.filterMap id).map some :=
      List.map_eq_map_iff.mpr (fun e he =>
        parse_effect_effLine e (heff e (mem_filterMap_id.mp he)))
    rw [h2, filterMap_id_map_some _ hnh]
  rw [hmap]

theorem subrecLinesS_facts (sr : SubRecord) :
    ∀ l ∈ subrecLinesS sr, l ≠ "" ∧ matchesMutpref l = false ∧
      firstNotPref l = false := by
  intro l hl
  simp only [subrecLinesS, List.mem_cons] at hl
  rcases hl with rfl | hl
  · exact ⟨string_ne_empty rfl, matchesMutpref_subrecHeadS sr,
      firstNotPref_subrecHeadS sr⟩
  · obtain ⟨e, _, rfl⟩ := List.mem_map.mp hl
    exact ⟨string_ne_empty rfl, matchesMutpref_effLine e,
      firstNotPref_effLine e⟩

theorem parse_mut_linesS (mu : Mutation) (h : wfMut mu = true) :
    parse_mut (mutLinesS mu) = .ok (some mu) := by
  obtain ⟨hr, ha, hd2, hsne, hnh, hsub⟩ := wfMut_parts h
  obtain ⟨hstr, hnn⟩ := descOk_parts mu.description hd2
  obtain ⟨hdne, hdh, _⟩ := strippedNE_parts mu.description hstr
  obtain ⟨hrefne, hrefw⟩ := refAltOk_show hr
  obtain ⟨haltne, haltw⟩ := refAltOk_show ha
  simp only [mutLinesS, parse_mut]
  rw [show mutHeadS mu =
    ⟨'<' :: (decChars mu.id ++ ('>' :: ' ' :: ((pyShowOpt mu.ref).data ++
      ('|' :: (decChars mu.start ++ ('-' :: (decChars mu.stop ++
      ('|' :: ((pyShowOpt mu.alt).data ++
      (' ' :: mu.description.data))))))))))⟩ from rfl]
  rw [matchMutPatt_build (decChars mu.id) (pyShowOpt mu.ref).data
    (decChars mu.start) (decChars mu.stop) (pyShowOpt mu.alt).data
    mu.description.data (decChars_all_word _) (decChars_ne_nil _)
    hrefw hrefne (decChars_all_digit _) (decChars_ne_nil _)
    (decChars_all_digit _) (decChars_ne_nil _) haltw haltne hdne hdh hnn]
  show parse_mut2 (decChars mu.id) (pyShowOpt mu.ref).data
    (decChars mu.start) (decChars mu.stop) (pyShowOpt mu.alt).data
    mu.description.data
    (((mu.subrecs.filterMap id).map subrecLinesS).flatten) = .ok (some mu)
  simp only [parse_mut2, pyIntChars_decChars]
  have hgroups : breakby (· = "") (separate matchesSubpref ""
      ((mu.subrecs.filterMap id).map subrecLinesS).flatten) =
      (mu.subrecs.filterMap id).map subrecLinesS := by
    apply breakby_separate_blocks
    intro b hb
    obtain ⟨sr, hsr, rfl⟩ := List.mem_map.mp hb
    refine ⟨subrecHeadS sr, (sr.effects.filterMap id).map effLine, rfl,
      matchesSubpref_subrecHeadS sr, ?_, ?_⟩
    · intro l hl
      obtain ⟨e, _, rfl⟩ := List.mem_map.mp hl
      exact matchesSubpref_effLine e
    · intro l hl
      exact (subrecLinesS_facts sr l hl).1
  rw [hgroups]
  have hml : ((mu.subrecs.filterMap id).map subrecLinesS).map parse_subrec =
      (mu.subrecs.filterMap id).map
        (fun sr => (Except.ok (some sr) : Except PyErr (Option SubRecord))) := by
    rw [List.map_map]
    exact List.map_eq_map_iff.mpr (fun sr hsr =>
      parse_subrec_linesS sr (hsub sr (mem_filterMap_id.mp hsr)))
  rw [hml, exceptList_map_ok, filterMap_id_map_some _ hnh]
  rw [noneFold_show mu.ref hr, noneFold_show mu.alt ha]
  rw [show pyStrip ⟨mu.description.data⟩ = pyStrip mu.description from rfl]
  rw [pyStrip_strippedNE mu.description hstr]

theorem mutLinesS_facts (mu : Mutation) :
    ∀ l ∈ mutLinesS mu, l ≠ "" ∧ firstNotPref l = false := by
  intro l hl
  simp only [mutLinesS, List.mem_cons] at hl
  rcases hl with rfl | hl
  · exact ⟨string_ne_empty rfl, firstNotPref_mutHeadS mu⟩
  · obtain ⟨b, hb, hlb⟩ := List.mem_flatten.mp hl
    obtain ⟨sr, _, rfl⟩ := List.mem_map.mp hb
    obtain ⟨h1, _, h3⟩ := subrecLinesS_facts sr l hlb
    exact ⟨h1, h3⟩

theorem mutLinesS_tail_not_mutpref (mu : Mutation) :
    ∀ l ∈ ((mu.subrecs.filterMap id).map subrecLinesS).flatten,
      matchesMutpref l = false := by
  intro l hl
  obtain ⟨b, hb, hlb⟩ := List.mem_flatten.mp hl
  obtain ⟨sr, _, rfl⟩ := List.mem_map.mp hb
  exact (subrecLinesS_facts sr l hlb).2.1

theorem parse_rec_linesS (r : Record) (h : wfRecord r = true) :
    parse_rec (recordLinesS r) = .ok r := by
  obtain ⟨hp, hne, hnh, hmut⟩ := wfRecord_parts h
  simp only [recordLinesS, parse_rec]
  have hgroups : breakby (· = "") (separate matchesMutpref ""
      ((r.mutations.filterMap id).map mutLinesS).flatten) =
      (r.mutations.filterMap id).map mutLinesS := by
    apply breakby_separate_blocks
    intro b hb
    obtain ⟨mu, hmu, rfl⟩ := List.mem_map.mp hb
    refine ⟨mutHeadS mu, ((mu.subrecs.filterMap id).map subrecLinesS).flatten,
      rfl, matchesMutpref_mutHeadS mu, mutLinesS_tail_not_mutpref mu, ?_⟩
    · intro l hl
      exact (mutLinesS_facts mu l hl).1
  rw [hgroups]
  have hml : ((r.mutations.filterMap id).map mutLinesS).map parse_mut =
      (r.mutations.filterMap id).map
        (fun mu => (Except.ok (some mu) : Except PyErr (Option Mutation))) := by
    rw [List.map_map]
    exact List.map_eq_map_iff.mpr (fun mu hmu =>
      parse_mut_linesS mu (hmut mu (mem_filterMap_id.mp hmu)))
  rw [hml, exceptList_map_ok, filterMap_id_map_some _ hnh]

theorem firstNotPref_protein {s : String} (h : proteinOk s = true) :
    firstNotPref s = true := by
  simp only [proteinOk, Bool.and_eq_true] at h
  obtain ⟨_, hp⟩ := h
  unfold firstNotPref
  rcases hd : s.data with _ | ⟨c, rest⟩
  · rfl
  · rw [hd] at hp
    simpa using hp

/-- C1: round trip.  For every well-formed, hole-free record tree, the
serializer succeeds and parsing its output yields a singleton list whose
element is structurally equal to the tree: same protein, mutation ids,
positions, optional ref and alt fields, descriptions, sub-record ids,
effect cls, level and target, and the same association lists in the same
order. -/
theorem c1_parse_write_roundtrip (T : Record) (h : wfRecord T = true) :
    ∃ ls, write [T] = some ls ∧ parse ls = .ok [T] := by
  refine ⟨recordLines T, write_singleton_wf T h, ?_⟩
  obtain ⟨hp, hne, hnh, hmut⟩ := wfRecord_parts h
  simp only [parse]
  rw [mapStrip_recordLines T h]
  have hfilter : (recordLinesS T).filter lineTruthy = recordLinesS T := by
    refine List.filter_eq_self.mpr ?_
    intro l hl
    simp only [recordLinesS, List.mem_cons] at hl
    rcases hl with rfl | hl
    · have hne2 : T.protein ≠ "" := fun hq =>
        (strippedNE_parts T.protein (proteinOk_parts hp).1).1 (by rw [hq])
      simpa [lineTruthy] using hne2
    · obtain ⟨b, hb, hlb⟩ := List.mem_flatten.mp hl
      obtain ⟨mu, _, rfl⟩ := List.mem_map.mp hb
      simpa [lineTruthy] using (mutLinesS_facts mu l hlb).1
  rw [hfilter]
  have hgroups : breakby (· = "") (separate firstNotPref "" (recordLinesS T)) =
      [recordLinesS T] := by
    have := breakby_separate_blocks firstNotPref [recordLinesS T] (by
      intro b hb
      simp only [List.mem_singleton] at hb
      subst hb
      refine ⟨T.protein, ((T.mutations.filterMap id).map mutLinesS).flatten,
        rfl, firstNotPref_protein hp, ?_, ?_⟩
      · intro l hl
        obtain ⟨b2, hb2, hlb⟩ := List.mem_flatten.mp hl
        obtain ⟨mu, _, rfl⟩ := List.mem_map.mp hb2
        exact (mutLinesS_facts mu l hlb).2
      · intro l hl
        simp only [recordLinesS] at hl
        rcases List.mem_cons.mp hl with rfl | hl2
        · exact fun hq =>
            (strippedNE_parts T.protein (proteinOk_parts hp).1).1 (by rw [hq])
        · obtain ⟨b2, hb2, hlb⟩ := List.mem_flatten.mp hl2
          obtain ⟨mu, _, rfl⟩ := List.mem_map.mp hb2
          exact (mutLinesS_facts mu l hlb).1)
    rwa [List.flatten_cons, List.flatten_nil, List.append_nil] at this
  rw [hgroups]
  simp only [List.map_cons, List.map_nil]
  rw [parse_rec_linesS T h]
  rfl

/-- Witness for C1 on the end-to-end example of the specification. -/
theorem c1_witness :
    ∃ ls, write [⟨"P12345", [some ⟨1, 10, 13, some "A", some "T",
        "description one", [some ⟨1, "subrecord text",
        [some ⟨"ORG", some "+", some "liver", ["X:1", "Y:2"]⟩]⟩]⟩]⟩] =
        some ls ∧
      parse ls = .ok [⟨"P12345", [some ⟨1, 10, 13, some "A", some "T",
        "description one", [some ⟨1, "subrecord text",
        [some ⟨"ORG", some "+", some "liver", ["X:1", "Y:2"]⟩]⟩]⟩]⟩] :=
  c1_parse_write_roundtrip
    ⟨"P12345", [some ⟨1, 10, 13, some "A", some "T", "description one",
      [some ⟨1, "subrecord text",
      [some ⟨"ORG", some "+", some "liver", ["X:1", "Y:2"]⟩]⟩]⟩]⟩
    (by decide)
